import Mathlib

/-!
Shallow embedding of the JSON-schema recursion/cycle analysis core of the
repository: `resolveRefs` / `checkForRecursionWithPath`
(src/utils/schemaExamples.ts), `collectRefs` / `tryResolveRefs` /
`findCircularRefs` (src/utils/cycleRefs.ts — the later of the two revisions
in that file, the one the claim line numbers point at) and
`findLineNumberForPath` (the line-number utilities).

JavaScript semantics that matter here and are modelled explicitly:
* property access on `undefined`/`null` throws a `TypeError`;
* property access on other primitives goes through a wrapper object and
  yields `undefined` (exotic string properties such as `length` and
  character indices are not modelled — no analysed code path touches them);
* a `Set`/`Map` compares primitives by value (SameValueZero) and objects by
  reference; the documents are `JSON.parse` results, i.e. trees without
  sharing, so object identity coincides with the position in the tree;
* `if (x)` tests JavaScript truthiness;
* `String.prototype.replace` with a string pattern replaces the first
  occurrence only.
-/

namespace JsonSchemaVerif

/-- JSON values as produced by `JSON.parse`: a finite tree (no sharing, no
`undefined` inside).  Numbers are modelled as integers; none of the analysed
code does arithmetic on them. -/
inductive JSON where
  | null
  | bool (b : Bool)
  | num (n : Int)
  | str (s : String)
  | arr (items : List JSON)
  | obj (fields : List (String × JSON))

-- Structural equality test for `JSON` (used to build the `DecidableEq`
-- instance; the derive handler does not support this nested inductive).
mutual
def beqJ : JSON → JSON → Bool
  | .null, .null => true
  | .bool a, .bool b => a == b
  | .num a, .num b => a == b
  | .str a, .str b => a == b
  | .arr xs, .arr ys => beqL xs ys
  | .obj fs, .obj gs => beqF fs gs
  | _, _ => false
def beqL : List JSON → List JSON → Bool
  | [], [] => true
  | x :: xs, y :: ys => beqJ x y && beqL xs ys
  | _, _ => false
def beqF : List (String × JSON) → List (String × JSON) → Bool
  | [], [] => true
  | (k, v) :: fs, (l, w) :: gs => k == l && beqJ v w && beqF fs gs
  | _, _ => false
end

mutual
theorem beqJ_iff : ∀ (a b : JSON), beqJ a b = true ↔ a = b
  | .null, b => by cases b <;> simp [beqJ]
  | .bool a, b => by cases b <;> simp [beqJ]
  | .num a, b => by cases b <;> simp [beqJ]
  | .str a, b => by cases b <;> simp [beqJ]
  | .arr xs, b => by
      cases b with
      | arr ys =>
        rw [show beqJ (.arr xs) (.arr ys) = beqL xs ys from rfl, beqL_iff xs ys]
        exact ⟨fun h => by rw [h], fun h => by injection h⟩
      | null => simp [beqJ]
      | bool c => simp [beqJ]
      | num n => simp [beqJ]
      | str s => simp [beqJ]
      | obj gs => simp [beqJ]
  | .obj fs, b => by
      cases b with
      | obj gs =>
        rw [show beqJ (.obj fs) (.obj gs) = beqF fs gs from rfl, beqF_iff fs gs]
        exact ⟨fun h => by rw [h], fun h => by injection h⟩
      | null => simp [beqJ]
      | bool c => simp [beqJ]
      | num n => simp [beqJ]
      | str s => simp [beqJ]
      | arr ys => simp [beqJ]
theorem beqL_iff : ∀ (xs ys : List JSON), beqL xs ys = true ↔ xs = ys
  | [], ys => by cases ys <;> simp [beqL]
  | x :: xs, ys => by
      cases ys with
      | nil => simp [beqL]
      | cons y t =>
        simp only [beqL, Bool.and_eq_true, beqJ_iff x y, beqL_iff xs t, List.cons.injEq]
theorem beqF_iff : ∀ (fs gs : List (String × JSON)), beqF fs gs = true ↔ fs = gs
  | [], gs => by cases gs <;> simp [beqF]
  | (k, v) :: fs, gs => by
      cases gs with
      | nil => simp [beqF]
      | cons hd tl =>
        obtain ⟨l, w⟩ := hd
        simp only [beqF, Bool.and_eq_true, beq_iff_eq,
          beqJ_iff v w, beqF_iff fs tl, List.cons.injEq, Prod.mk.injEq]
end

instance : DecidableEq JSON := fun a b => decidable_of_iff (beqJ a b = true) (beqJ_iff a b)

instance {ε α : Type} [DecidableEq ε] [DecidableEq α] : DecidableEq (Except ε α)
  | .ok a, .ok b =>
    if h : a = b then .isTrue (by rw [h]) else .isFalse (by simp [h])
  | .error e, .error f =>
    if h : e = f then .isTrue (by rw [h]) else .isFalse (by simp [h])
  | .ok _, .error _ => .isFalse (fun h => nomatch h)
  | .error _, .ok _ => .isFalse (fun h => nomatch h)

/-- JavaScript truthiness of a defined value (`NaN` does not arise in the
integer model). -/
def truthy : JSON → Bool
  | .null => false
  | .bool b => b
  | .num n => n != 0
  | .str s => s != ""
  | .arr _ => true
  | .obj _ => true

/-- One step of a position inside a JSON tree: an object field or an array
index. -/
inductive Seg where
  | fld (s : String)
  | idx (n : Nat)
deriving DecidableEq, Repr

/-- The value stored at a position of a JSON tree (`none` when the position
does not exist). -/
def getPos : JSON → List Seg → Option JSON
  | j, [] => some j
  | .obj fs, .fld k :: rest =>
    match fs.lookup k with
    | some v => getPos v rest
    | none => none
  | .arr xs, .idx i :: rest =>
    match xs.get? i with
    | some v => getPos v rest
    | none => none
  | _, _ => none

/-!  Character-list implementations of the string operations the source
uses (`split`, `replace`, `startsWith`, array-index coercion).  The
library's byte-position based versions are avoided because the development
relies on kernel evaluation of closed runs. -/

/-- `startsWithL pat l`: does `l` start with `pat`? -/
def startsWithL : List Char → List Char → Bool
  | [], _ => true
  | _ :: _, [] => false
  | p :: ps, c :: cs => p == c && startsWithL ps cs

/-- The remainder of `l` after the leading occurrence of `pat`, when `l`
starts with `pat`. -/
def stripStart : List Char → List Char → Option (List Char)
  | [], l => some l
  | _ :: _, [] => none
  | p :: ps, c :: cs => if p = c then stripStart ps cs else none

/-- Left-to-right, non-overlapping split on a (non-empty) separator; the
fuel is an internal device (`length + 1` always suffices: every step
consumes at least one character). -/
def jsSplitAux (sep : List Char) : Nat → List Char → List Char → List (List Char)
  | 0, acc, _ => [acc.reverse]
  | _ + 1, acc, [] => [acc.reverse]
  | f + 1, acc, c :: cs =>
    match stripStart sep (c :: cs) with
    | some rem => acc.reverse :: jsSplitAux sep f [] rem
    | none => jsSplitAux sep f (c :: acc) cs

/-- JavaScript `s.split(sep)` for a non-empty string separator
(`''.split(sep)` is `['']`, a trailing separator contributes a final
empty piece).  The analysed code never splits on the empty string. -/
def jsSplit (s sep : String) : List String :=
  if sep = "" then [s]
  else (jsSplitAux sep.data (s.data.length + 1) [] s.data).map String.mk

/-- JavaScript `s.startsWith(pat)`. -/
def jsStartsWith (s pat : String) : Bool := startsWithL pat.data s.data

/-- `String.prototype.replace` with a plain string pattern: replace the
first occurrence only.  The analysed code always calls
`$ref.replace('#', '')`. -/
def jsReplaceFirst (s pat repl : String) : String :=
  match jsSplit s pat with
  | [] => s
  | [x] => x
  | x :: y :: rest => x ++ repl ++ String.intercalate pat (y :: rest)

def digitVal (c : Char) : Option Nat :=
  if c < '0' ∨ '9' < c then none else some (c.toNat - 48)

def digitsVal : Nat → List Char → Option Nat
  | acc, [] => some acc
  | acc, c :: cs =>
    match digitVal c with
    | some d => digitsVal (acc * 10 + d) cs
    | none => none

/-- Canonical array index: JavaScript `arr[k]` hits an element exactly when
`k` is the canonical decimal string of an index (no leading zeros, no
signs). -/
def canonicalNat (s : String) : Option Nat :=
  match s.data with
  | [] => none
  | ['0'] => some 0
  | '0' :: _ => none
  | l => digitsVal 0 l

/-- `Object.entries(x)`: fields of an object, indexed elements of an array,
indexed characters of a string, nothing for the remaining primitives.
(`Object.entries` is never called on `null`/`undefined` by the analysed
code — every call site is guarded by a truthiness check.) -/
def jsEntries (v : JSON) : List (String × JSON) :=
  match v with
  | .obj fs => fs
  | .arr xs => (xs.enum.map fun (i, x) => (toString i, x))
  | .str s => (s.toList.enum.map fun (i, c) => (toString i, JSON.str (String.singleton c)))
  | _ => []

namespace SchemaExamples

/-!
Embedding of the second half of `src/utils/schemaExamples.ts`:
`resolveRefs` (lines 543–556) and `checkForRecursionWithPath`
(lines 570–629).

A run works over one fixed root document (a `JSON.parse` result, hence a
tree).  A JavaScript value reached during a run is identified the way a
JavaScript `Set` identifies it (SameValueZero):
* objects and arrays by reference — for a tree this is the position of the
  node inside the root document;
* `null` and the other primitives by value;
* `undefined` is a single value.
-/

/-- The identity of a JavaScript value reached during a run, as compared by
`Set.has` / `Set.add`. -/
inductive NodeRef where
  | undefined
  | prim (v : JSON)
  | pos (p : List Seg)
deriving DecidableEq

/-- Errors a run can end in.  `typeError` models the JavaScript `TypeError`
thrown by property access on `undefined`/`null` (and by calling `.replace`
on a non-string); the exception text is not modelled.  `outOfFuel` is the
artificial bound of the fuelled embedding — the theorems quantify over the
fuel, and the concrete runs use ample fuel. -/
inductive JsErr where
  | typeError
  | outOfFuel
deriving DecidableEq, Repr

/-- The value currently designated by a `NodeRef` (`none` = `undefined`). -/
def valAt (root : JSON) : NodeRef → Option JSON
  | .undefined => none
  | .prim v => some v
  | .pos p => getPos root p

/-- JavaScript truthiness of the value behind a `NodeRef`. -/
def truthyRef (root : JSON) (n : NodeRef) : Bool :=
  match valAt root n with
  | none => false
  | some v => truthy v

/-- The identity of a member value: objects and arrays keep their position
(reference identity), primitives are identified by value. -/
def refOf (base : List Seg) (s : Seg) (v : JSON) : NodeRef :=
  match v with
  | .obj _ => .pos (base ++ [s])
  | .arr _ => .pos (base ++ [s])
  | v => .prim v

/-- JavaScript member access `x[key]`: throws on `undefined`/`null`, yields
`undefined` on other primitives (exotic wrapper properties such as string
indices and `length` are not modelled — no analysed code path reads them),
and looks the key up in objects (canonical indices in arrays). -/
def jsIndex (root : JSON) (n : NodeRef) (key : String) : Except JsErr NodeRef :=
  match n with
  | .undefined => .error .typeError
  | .prim .null => .error .typeError
  | .prim _ => .ok .undefined
  | .pos p =>
    match getPos root p with
    | some (.obj fs) =>
      match fs.lookup key with
      | some v => .ok (refOf p (.fld key) v)
      | none => .ok .undefined
    | some (.arr xs) =>
      match canonicalNat key with
      | some i =>
        match xs.get? i with
        | some v => .ok (refOf p (.idx i) v)
        | none => .ok .undefined
      | none => .ok .undefined
    | some .null => .error .typeError
    | some _ => .ok .undefined
    | none => .ok .undefined

/-- Source, lines 543–556 (`resolveRefs`): walk the `$ref` pointer — with
the first `'#'` removed and split on `'/'`, skipping empty segments — as
successive member accesses starting from the root schema.  A node without a
truthy `$ref` is returned unchanged. -/
def walkSegs (root : JSON) : NodeRef → List String → Except JsErr NodeRef
  | cur, [] => .ok cur
  | cur, part :: rest =>
    if part = "" then walkSegs root cur rest
    else
      match jsIndex root cur part with
      | .error e => .error e
      | .ok nxt => walkSegs root nxt rest

def resolveRefs (root : JSON) (inputSchema : NodeRef) : Except JsErr NodeRef :=
  match jsIndex root inputSchema "$ref" with
  | .error e => .error e
  | .ok refv =>
    if truthyRef root refv then
      match valAt root refv with
      | some (.str s) => walkSegs root (.pos []) (jsSplit (jsReplaceFirst s "#" "") "/")
      | _ => .error .typeError
    else .ok inputSchema

/-- Source, line 541: the composition keys the traversal descends into. -/
def keysToCheck : List String := ["allOf", "anyOf", "oneOf", "not", "properties"]

/-- The string the run appends to the diagnostic path for a traversed
reference (`` `$ref:${schema['$ref']}` ``); the analysed runs only reach
this with a string-valued `$ref`. -/
def refStep (root : JSON) (refv : NodeRef) : String :=
  match valAt root refv with
  | some (.str s) => "$ref:" ++ s
  | _ => "$ref:"

/-- Result record of `checkForRecursionWithPath`. -/
structure RecResult where
  hasRecursion : Bool
  recursionPath : Option String
deriving DecidableEq, Repr

/-- Children contributed by one array-valued composition key
(`allOf`/`anyOf`/`oneOf`), with their path steps `key[i]`. -/
def arrChildren (key : String) (base : List Seg) : Nat → List JSON → List (String × NodeRef)
  | _, [] => []
  | i, x :: xs =>
    (key ++ "[" ++ toString i ++ "]", refOf base (.idx i) x) :: arrChildren key base (i + 1) xs

/-- Children contributed by one object-valued composition key (iterated via
`Object.entries`), with their path steps `key.name`. -/
def objChildren (key : String) (base : List Seg) : List (String × JSON) → List (String × NodeRef)
  | [] => []
  | (name, w) :: rest => (key ++ "." ++ name, refOf base (.fld name) w) :: objChildren key base rest

/-- Children contributed by one composition key of an object-typed node:
mirrors lines 601–626 of the source (array values are walked by index, any
other truthy value goes through `Object.entries` — for an object its
fields, for a string its characters, nothing for other primitives). -/
def childrenFor (p : List Seg) (fs : List (String × JSON)) (key : String) : List (String × NodeRef) :=
  match fs.lookup key with
  | none => []
  | some v =>
    if truthy v then
      match v with
      | .arr xs => arrChildren key (p ++ [.fld key]) 0 xs
      | .obj gs => objChildren key (p ++ [.fld key]) gs
      | .str s => objChildren key (p ++ [.fld key]) (jsEntries (.str s))
      | _ => []
    else []

/-- The pruning rule of line 596: descent continues only when the resolved
node is an object carrying `type == "object"`.  Returns the node's position
and fields when descent continues. -/
def pruneTarget (root : JSON) (n : NodeRef) : Option (List Seg × List (String × JSON)) :=
  match n with
  | .pos p =>
    match getPos root p with
    | some (.obj fs) =>
      match fs.lookup "type" with
      | some (.str "object") => some (p, fs)
      | _ => none
    | _ => none
  | _ => none

/-- Sequential traversal of a child list, threading the (mutated) visited
set and short-circuiting on the first recursion found — the flattened form
of the nested loops of lines 601–626. -/
def runSeq (step : NodeRef → List NodeRef → List String → Except JsErr (RecResult × List NodeRef)) :
    List (String × NodeRef) → List NodeRef → List String → Except JsErr (RecResult × List NodeRef)
  | [], visited, _ => .ok (⟨false, none⟩, visited)
  | (s, c) :: rest, visited, path =>
    match step c visited (path ++ [s]) with
    | .error e => .error e
    | .ok (res, v1) =>
      if res.hasRecursion then .ok (res, v1) else runSeq step rest v1 path

/-- Source, lines 570–629 (`checkForRecursionWithPath`).  The JavaScript
`Set` argument is threaded explicitly (it is mutated in place by the
source), so the embedding returns the result record together with the set.
The fuel only bounds the recursion depth of the embedding; every theorem
below either quantifies over it or instantiates it amply. -/
def checkForRecursionWithPath (root : JSON) :
    Nat → NodeRef → List NodeRef → List String → Except JsErr (RecResult × List NodeRef)
  | 0, _, _, _ => .error .outOfFuel
  | f + 1, schema, visited, path =>
    match jsIndex root schema "$ref" with
    | .error e => .error e
    | .ok refv =>
      match (if truthyRef root refv then resolveRefs root schema else .ok schema) with
      | .error e => .error e
      | .ok initialSchema =>
        if initialSchema ∈ visited then
          .ok (⟨true, some (String.intercalate " -> " path)⟩, visited)
        else
          match (if truthyRef root refv then
                  checkForRecursionWithPath root f initialSchema (initialSchema :: visited)
                    (path ++ [refStep root refv])
                 else .ok (⟨false, none⟩, initialSchema :: visited)) with
          | .error e => .error e
          | .ok pr =>
            if pr.1.hasRecursion then .ok pr
            else
              match pruneTarget root initialSchema with
              | none => .ok (⟨false, none⟩, pr.2)
              | some (p, fs) =>
                runSeq (checkForRecursionWithPath root f)
                  (keysToCheck.flatMap (childrenFor p fs)) pr.2 path

/-- Is the value an object or an array (a node identified by reference)? -/
def isComposite : JSON → Bool
  | .obj _ => true
  | .arr _ => true
  | _ => false

-- No object anywhere in the tree carries a field named `$ref`.
mutual
def noRef : JSON → Bool
  | .obj fs => noRefFields fs
  | .arr xs => noRefElems xs
  | _ => true
def noRefFields : List (String × JSON) → Bool
  | [] => true
  | (k, v) :: rest => (k != "$ref") && noRef v && noRefFields rest
def noRefElems : List JSON → Bool
  | [] => true
  | x :: xs => noRef x && noRefElems xs
end

-- Well-formedness along the traversed structure: object keys are unique,
-- and every truthy composition value is an object or array all of whose
-- members (the schemas the traversal recurses into) are again objects or
-- arrays satisfying the same condition.  Rules out `null` roots, duplicate
-- keys, and primitive values sitting at traversed member positions — the
-- shapes under which the visited `Set` can identify two distinct tree
-- positions (see the C8 counterexample).
mutual
def tame : JSON → Bool
  | .null => false
  | .obj fs => decide ((fs.map Prod.fst).Nodup) && tameFields fs
  | _ => true
def tameFields : List (String × JSON) → Bool
  | [] => true
  | (k, v) :: rest =>
    (if k ∈ keysToCheck then (!truthy v) || tameMembers v else true) && tameFields rest
def tameMembers : JSON → Bool
  | .arr xs => tameElems xs
  | .obj gs => decide ((gs.map Prod.fst).Nodup) && tameEntries gs
  | _ => false
def tameElems : List JSON → Bool
  | [] => true
  | x :: xs => isComposite x && tame x && tameElems xs
def tameEntries : List (String × JSON) → Bool
  | [] => true
  | (_, w) :: rest => isComposite w && tame w && tameEntries rest
end

-- Structural size, used as a fuel bound for no-reference runs.
mutual
def sizeJ : JSON → Nat
  | .obj fs => 1 + sizeFs fs
  | .arr xs => 1 + sizeEl xs
  | _ => 1
def sizeFs : List (String × JSON) → Nat
  | [] => 0
  | (_, v) :: rest => sizeJ v + sizeFs rest
def sizeEl : List JSON → Nat
  | [] => 0
  | x :: xs => sizeJ x + sizeEl xs
end

theorem sizeJ_pos : ∀ j, 1 ≤ sizeJ j := by
  intro j
  cases j <;> simp [sizeJ]

theorem lookup_sizeFs : ∀ (fs : List (String × JSON)) (k : String) (v : JSON),
    fs.lookup k = some v → sizeJ v ≤ sizeFs fs := by
  intro fs
  induction fs with
  | nil => intro k v h; simp [List.lookup] at h
  | cons hd rest ih =>
    intro k v h
    obtain ⟨k0, v0⟩ := hd
    simp only [List.lookup] at h
    split at h
    · injection h with h2
      simp [sizeFs, ← h2]
    · have := ih k v h
      simp only [sizeFs]
      omega

theorem elem_sizeEl : ∀ (xs : List JSON) (x : JSON), x ∈ xs → sizeJ x ≤ sizeEl xs := by
  intro xs
  induction xs with
  | nil => intro x h; simp at h
  | cons y ys ih =>
    intro x h
    rcases List.mem_cons.mp h with h1 | h2
    · simp [sizeEl, h1]
    · have := ih x h2
      simp only [sizeEl]
      omega

theorem entry_sizeFs : ∀ (gs : List (String × JSON)) (n : String) (w : JSON),
    (n, w) ∈ gs → sizeJ w ≤ sizeFs gs := by
  intro gs
  induction gs with
  | nil => intro n w h; simp at h
  | cons hd rest ih =>
    intro n w h
    obtain ⟨k0, v0⟩ := hd
    rcases List.mem_cons.mp h with h1 | h2
    · injection h1 with h2 h3
      simp [sizeFs, ← h3]
    · have := ih n w h2
      simp only [sizeFs]
      omega

theorem noRef_lookup_none : ∀ (fs : List (String × JSON)),
    noRefFields fs = true → fs.lookup "$ref" = none := by
  intro fs
  induction fs with
  | nil => intro h; simp [List.lookup]
  | cons hd rest ih =>
    intro h
    obtain ⟨k, v⟩ := hd
    simp only [noRefFields, Bool.and_eq_true, bne_iff_ne] at h
    simp only [List.lookup]
    split
    · rename_i heq
      exact absurd (beq_iff_eq.mp heq).symm h.1.1
    · exact ih h.2

theorem noRef_lookup_val : ∀ (fs : List (String × JSON)) (k : String) (v : JSON),
    noRefFields fs = true → fs.lookup k = some v → noRef v = true := by
  intro fs
  induction fs with
  | nil => intro k v h hl; simp [List.lookup] at hl
  | cons hd rest ih =>
    intro k v h hl
    obtain ⟨k0, v0⟩ := hd
    simp only [noRefFields, Bool.and_eq_true] at h
    simp only [List.lookup] at hl
    split at hl
    · injection hl with h2
      exact h2 ▸ h.1.2
    · exact ih k v h.2 hl

theorem noRef_elem : ∀ (xs : List JSON) (x : JSON),
    noRefElems xs = true → x ∈ xs → noRef x = true := by
  intro xs
  induction xs with
  | nil => intro x h hm; simp at hm
  | cons y ys ih =>
    intro x h hm
    simp only [noRefElems, Bool.and_eq_true] at h
    rcases List.mem_cons.mp hm with h1 | h2
    · exact h1 ▸ h.1
    · exact ih x h.2 h2

theorem noRef_entry : ∀ (gs : List (String × JSON)) (n : String) (w : JSON),
    noRefFields gs = true → (n, w) ∈ gs → noRef w = true := by
  intro gs
  induction gs with
  | nil => intro n w h hm; simp at hm
  | cons hd rest ih =>
    intro n w h hm
    obtain ⟨k0, v0⟩ := hd
    simp only [noRefFields, Bool.and_eq_true] at h
    rcases List.mem_cons.mp hm with h1 | h2
    · injection h1 with h2 h3
      exact h3 ▸ h.1.2
    · exact ih n w h.2 h2

theorem tame_comp_members : ∀ (fs : List (String × JSON)) (k : String) (v : JSON),
    tameFields fs = true → k ∈ keysToCheck → fs.lookup k = some v → truthy v = true →
    tameMembers v = true := by
  intro fs
  induction fs with
  | nil => intro k v h hk hl; simp [List.lookup] at hl
  | cons hd rest ih =>
    intro k v h hk hl htr
    obtain ⟨k0, v0⟩ := hd
    simp only [tameFields, Bool.and_eq_true] at h
    simp only [List.lookup] at hl
    split at hl
    · rename_i heq
      injection hl with h2
      subst h2
      have hk0 : k0 = k := (beq_iff_eq.mp heq).symm
      have := h.1
      rw [if_pos (hk0 ▸ hk)] at this
      rcases Bool.or_eq_true_iff.mp this with h3 | h3
      · rw [htr] at h3
        simp at h3
      · exact h3
    · exact ih k v h.2 hk hl htr

theorem tame_elem : ∀ (xs : List JSON) (x : JSON),
    tameElems xs = true → x ∈ xs → isComposite x = true ∧ tame x = true := by
  intro xs
  induction xs with
  | nil => intro x h hm; simp at hm
  | cons y ys ih =>
    intro x h hm
    simp only [tameElems, Bool.and_eq_true] at h
    rcases List.mem_cons.mp hm with h1 | h2
    · exact h1 ▸ ⟨h.1.1, h.1.2⟩
    · exact ih x h.2 h2

theorem tame_entry : ∀ (gs : List (String × JSON)) (n : String) (w : JSON),
    tameEntries gs = true → (n, w) ∈ gs → isComposite w = true ∧ tame w = true := by
  intro gs
  induction gs with
  | nil => intro n w h hm; simp at hm
  | cons hd rest ih =>
    intro n w h hm
    obtain ⟨k0, v0⟩ := hd
    simp only [tameEntries, Bool.and_eq_true] at h
    rcases List.mem_cons.mp hm with h1 | h2
    · injection h1 with h2 h3
      exact h3 ▸ ⟨h.1.1, h.1.2⟩
    · exact ih n w h.2 h2

theorem lookup_mem : ∀ {α : Type} [BEq α] [LawfulBEq α] {β : Type}
    (l : List (α × β)) (k : α) (v : β), l.lookup k = some v → (k, v) ∈ l := by
  intro α _ _ β l
  induction l with
  | nil => intro k v h; simp [List.lookup] at h
  | cons hd rest ih =>
    intro k v h
    obtain ⟨k0, v0⟩ := hd
    simp only [List.lookup] at h
    split at h
    · rename_i heq
      injection h with h2
      rw [List.mem_cons]
      left
      rw [beq_iff_eq.mp heq, h2]
    · exact List.mem_cons_of_mem _ (ih k v h)

theorem getPos_append : ∀ (p q : List Seg) (root : JSON),
    getPos root (p ++ q) = (getPos root p).bind (fun j => getPos j q) := by
  intro p
  induction p with
  | nil => intro q root; simp [getPos]
  | cons s rest ih =>
    intro q root
    cases root with
    | obj fs =>
      cases s with
      | fld k =>
        simp only [List.cons_append, getPos]
        cases h : fs.lookup k with
        | some v => simp [ih]
        | none => simp
      | idx i => simp [getPos]
    | arr xs =>
      cases s with
      | idx i =>
        simp only [List.cons_append, getPos]
        cases h : xs.get? i with
        | some v => simp [ih]
        | none => simp
      | fld k => simp [getPos]
    | null => cases s <;> simp [getPos]
    | bool b => cases s <;> simp [getPos]
    | num n => cases s <;> simp [getPos]
    | str t => cases s <;> simp [getPos]

/-- `x` is the reference of a node at or below position `q`. -/
def extOf (q : List Seg) (x : NodeRef) : Prop := ∃ e, x = NodeRef.pos (q ++ e)

theorem extOf_mono {p : List Seg} (t : List Seg) {x : NodeRef} :
    extOf (p ++ t) x → extOf p x := by
  rintro ⟨e, he⟩
  exact ⟨t ++ e, by rw [he, List.append_assoc]⟩

theorem extOf_self (q : List Seg) : extOf q (NodeRef.pos q) := ⟨[], by simp⟩

theorem extOf_disjoint : ∀ (qa qb : List Seg) (x : NodeRef),
    qa.length = qb.length → qa ≠ qb → extOf qa x → extOf qb x → False := by
  rintro qa qb x hlen hne ⟨e1, h1⟩ ⟨e2, h2⟩
  rw [h1] at h2
  injection h2 with h3
  have h4 := congrArg (List.take qa.length) h3
  rw [List.take_left] at h4
  rw [hlen, List.take_left] at h4
  exact hne h4

/-- Pairwise independence of sibling children: their positions (when they
are reference nodes) are distinct positions of equal depth. -/
def childIndep (a b : String × NodeRef) : Prop :=
  ∀ qa qb, a.2 = NodeRef.pos qa → b.2 = NodeRef.pos qb →
    qa.length = qb.length ∧ qa ≠ qb

theorem refOf_pos_eq : ∀ (base : List Seg) (s : Seg) (m : JSON) (q : List Seg),
    refOf base s m = NodeRef.pos q → q = base ++ [s] := by
  intro base s m q h
  cases m <;> simp [refOf] at h <;> exact h.symm

theorem refOf_composite {base : List Seg} {s : Seg} {m : JSON}
    (h : isComposite m = true) : refOf base s m = NodeRef.pos (base ++ [s]) := by
  cases m <;> simp [isComposite] at h <;> simp [refOf]

theorem arrChildren_mem : ∀ (key : String) (base : List Seg) (xs : List JSON) (i0 : Nat)
    (c : String × NodeRef), c ∈ arrChildren key base i0 xs →
    ∃ k x, xs.get? k = some x ∧ c.2 = refOf base (.idx (i0 + k)) x := by
  intro key base xs
  induction xs with
  | nil => intro i0 c h; simp [arrChildren] at h
  | cons y ys ih =>
    intro i0 c h
    simp only [arrChildren] at h
    rcases List.mem_cons.mp h with h1 | h2
    · exact ⟨0, y, rfl, by rw [h1]; simp⟩

    · obtain ⟨k, x, hget, hc⟩ := ih (i0 + 1) c h2
      exact ⟨k + 1, x, by simpa using hget, by rw [hc]; congr 2; omega⟩

theorem objChildren_mem : ∀ (key : String) (base : List Seg) (gs : List (String × JSON))
    (c : String × NodeRef), c ∈ objChildren key base gs →
    ∃ n w, (n, w) ∈ gs ∧ c = (key ++ "." ++ n, refOf base (.fld n) w) := by
  intro key base gs
  induction gs with
  | nil => intro c h; simp [objChildren] at h
  | cons hd rest ih =>
    intro c h
    obtain ⟨n0, w0⟩ := hd
    simp only [objChildren] at h
    rcases List.mem_cons.mp h with h1 | h2
    · exact ⟨n0, w0, List.mem_cons_self _ _, h1⟩
    · obtain ⟨n, w, hm, hc⟩ := ih c h2
      exact ⟨n, w, List.mem_cons_of_mem _ hm, hc⟩

theorem mem_lookup_of_nodup : ∀ (gs : List (String × JSON)) (n : String) (w : JSON),
    (gs.map Prod.fst).Nodup → (n, w) ∈ gs → gs.lookup n = some w := by
  intro gs
  induction gs with
  | nil => intro n w hnd hm; simp at hm
  | cons hd rest ih =>
    intro n w hnd hm
    obtain ⟨n0, w0⟩ := hd
    simp only [List.map, List.nodup_cons] at hnd
    rcases List.mem_cons.mp hm with h1 | h2
    · injection h1 with h2 h3
      simp [List.lookup, h2, h3]
    · have hnmem : n ∈ rest.map Prod.fst := List.mem_map.mpr ⟨(n, w), h2, rfl⟩
      have hne : ¬ (n == n0) = true := by
        intro hb
        exact hnd.1 ((beq_iff_eq.mp hb) ▸ hnmem)
      simp only [List.lookup, hne, Bool.false_eq_true, if_false]
      exact ih n w hnd.2 h2

theorem arrChildren_pairwise : ∀ (key : String) (base : List Seg) (xs : List JSON) (i0 : Nat),
    List.Pairwise childIndep (arrChildren key base i0 xs) := by
  intro key base xs
  induction xs with
  | nil => intro i0; simp [arrChildren]
  | cons y ys ih =>
    intro i0
    simp only [arrChildren]
    refine List.Pairwise.cons ?_ (ih (i0 + 1))
    intro b hb qa qb hqa hqb
    obtain ⟨k, x, hget, hc⟩ := arrChildren_mem key base ys (i0 + 1) b hb
    have ha : qa = base ++ [.idx i0] := refOf_pos_eq base _ y qa hqa
    have hb2 : qb = base ++ [.idx (i0 + 1 + k)] := by
      rw [hc] at hqb
      exact refOf_pos_eq base _ x qb hqb
    constructor
    · rw [ha, hb2]; simp
    · rw [ha, hb2]
      intro he
      have := List.append_cancel_left he
      injection this with h4
      injection h4 with h5
      omega

theorem objChildren_pairwise : ∀ (key : String) (base : List Seg)
    (gs : List (String × JSON)), (gs.map Prod.fst).Nodup →
    List.Pairwise childIndep (objChildren key base gs) := by
  intro key base gs
  induction gs with
  | nil => intro hnd; simp [objChildren]
  | cons hd rest ih =>
    intro hnd
    obtain ⟨n0, w0⟩ := hd
    simp only [List.map, List.nodup_cons] at hnd
    simp only [objChildren]
    refine List.Pairwise.cons ?_ (ih hnd.2)
    intro b hb qa qb hqa hqb
    obtain ⟨n, w, hm, hc⟩ := objChildren_mem key base rest b hb
    have ha : qa = base ++ [.fld n0] := refOf_pos_eq base _ w0 qa hqa
    have hb2 : qb = base ++ [.fld n] := by
      rw [hc] at hqb
      exact refOf_pos_eq base _ w qb hqb
    have hne : n0 ≠ n := by
      intro he
      exact hnd.1 (he ▸ List.mem_map.mpr ⟨(n, w), hm, rfl⟩)
    constructor
    · rw [ha, hb2]; simp
    · rw [ha, hb2]
      intro he
      have := List.append_cancel_left he
      injection this with h4
      injection h4 with h5
      exact hne h5

theorem childrenFor_pos_shape : ∀ (p : List Seg) (fs : List (String × JSON)) (key : String)
    (c : String × NodeRef) (qa : List Seg), c ∈ childrenFor p fs key →
    c.2 = NodeRef.pos qa → ∃ s, qa = p ++ [.fld key, s] := by
  intro p fs key c qa hm hpos
  simp only [childrenFor] at hm
  split at hm
  · simp at hm
  · rename_i v hlk
    split at hm
    · split at hm
      · obtain ⟨k, x, hget, hc⟩ := arrChildren_mem _ _ _ _ c hm
        rw [hc] at hpos
        refine ⟨.idx (0 + k), ?_⟩
        rw [refOf_pos_eq _ _ _ _ hpos, List.append_assoc]
        rfl
      · obtain ⟨n, w, hmem, hc⟩ := objChildren_mem _ _ _ c hm
        rw [hc] at hpos
        refine ⟨.fld n, ?_⟩
        have := refOf_pos_eq _ _ _ _ hpos
        rw [this, List.append_assoc]
        rfl
      · obtain ⟨n, w, hmem, hc⟩ := objChildren_mem _ _ _ c hm
        rw [hc] at hpos
        refine ⟨.fld n, ?_⟩
        have := refOf_pos_eq _ _ _ _ hpos
        rw [this, List.append_assoc]
        rfl
      · simp at hm
    · simp at hm

theorem childrenFor_pairwise : ∀ (p : List Seg) (fs : List (String × JSON)) (key : String),
    tameFields fs = true → key ∈ keysToCheck →
    List.Pairwise childIndep (childrenFor p fs key) := by
  intro p fs key htf hkey
  simp only [childrenFor]
  split
  · exact List.Pairwise.nil
  · rename_i v hlk
    split
    · rename_i htr
      have hmem := tame_comp_members fs key v htf hkey hlk htr
      split
      · exact arrChildren_pairwise key _ _ 0
      · rename_i gs
        simp only [tameMembers, Bool.and_eq_true, decide_eq_true_eq] at hmem
        exact objChildren_pairwise key _ gs hmem.1
      · rename_i s
        simp [tameMembers] at hmem
      · exact List.Pairwise.nil
    · exact List.Pairwise.nil

theorem flat_children_pairwise : ∀ (p : List Seg) (fs : List (String × JSON))
    (keys : List String), keys.Nodup → tameFields fs = true →
    (∀ k ∈ keys, k ∈ keysToCheck) →
    List.Pairwise childIndep (keys.flatMap (childrenFor p fs)) := by
  intro p fs keys
  induction keys with
  | nil => intro hnd htf hsub; simp
  | cons k ks ih =>
    intro hnd htf hsub
    simp only [List.nodup_cons] at hnd
    rw [List.flatMap_cons, List.pairwise_append]
    refine ⟨childrenFor_pairwise p fs k htf (hsub k (List.mem_cons_self k ks)),
      ih hnd.2 htf (fun x hx => hsub x (List.mem_cons_of_mem k hx)), ?_⟩
    intro a ha b hb
    obtain ⟨k2, hk2, hbk2⟩ := List.mem_flatMap.mp hb
    intro qa qb hqa hqb
    obtain ⟨s1, hs1⟩ := childrenFor_pos_shape p fs k a qa ha hqa
    obtain ⟨s2, hs2⟩ := childrenFor_pos_shape p fs k2 b qb hbk2 hqb
    have hkne : k ≠ k2 := fun he => hnd.1 (he ▸ hk2)
    constructor
    · rw [hs1, hs2]; simp
    · rw [hs1, hs2]
      intro he
      have h4 := List.append_cancel_left he
      injection h4 with h5
      injection h5 with h6
      exact hkne h6

theorem children_spec : ∀ (root : JSON) (p : List Seg) (fs : List (String × JSON)),
    getPos root p = some (.obj fs) → noRefFields fs = true → tameFields fs = true →
    ∀ c ∈ keysToCheck.flatMap (childrenFor p fs),
      ∃ q m, c.2 = NodeRef.pos q ∧ q.length = p.length + 2 ∧ extOf p c.2 ∧
        getPos root q = some m ∧ isComposite m = true ∧ noRef m = true ∧ tame m = true ∧
        sizeJ m + 2 ≤ sizeJ (.obj fs) := by
  intro root p fs hp hnr htf c hc
  obtain ⟨key, hkey, hck⟩ := List.mem_flatMap.mp hc
  simp only [childrenFor] at hck
  split at hck
  · simp at hck
  · rename_i v hlk
    split at hck
    · rename_i htr
      have hmem := tame_comp_members fs key v htf hkey hlk htr
      have hvnr : noRef v = true := noRef_lookup_val fs key v hnr hlk
      have hvsize : sizeJ v ≤ sizeFs fs := lookup_sizeFs fs key v hlk
      split at hck
      · rename_i xs
        obtain ⟨k, x, hget, hcref⟩ := arrChildren_mem key _ xs 0 c hck
        simp only [Nat.zero_add] at hcref
        simp only [tameMembers] at hmem
        have hxmem : x ∈ xs := List.get?_mem hget
        obtain ⟨hxcomp, hxtame⟩ := tame_elem xs x hmem hxmem
        have hxnr : noRef x = true := by
          simp only [noRef] at hvnr
          exact noRef_elem xs x hvnr hxmem
        refine ⟨p ++ [.fld key, .idx k], x, ?_, by simp, ?_, ?_, hxcomp, hxnr, hxtame, ?_⟩
        · rw [hcref, refOf_composite hxcomp, List.append_assoc]; rfl
        · rw [hcref, refOf_composite hxcomp]
          exact extOf_mono [.fld key] ⟨[.idx k], rfl⟩
        · rw [getPos_append, hp]
          simp only [Option.bind]
          simp only [getPos, hlk, hget]
        · have h1 : sizeJ x ≤ sizeEl xs := elem_sizeEl xs x hxmem
          have h2 : sizeJ (JSON.arr xs) = 1 + sizeEl xs := rfl
          have h3 : sizeJ (JSON.obj fs) = 1 + sizeFs fs := rfl
          omega
      · rename_i gs
        obtain ⟨n, w, hmemg, hcpair⟩ := objChildren_mem key _ gs c hck
        simp only [tameMembers, Bool.and_eq_true, decide_eq_true_eq] at hmem
        obtain ⟨hwcomp, hwtame⟩ := tame_entry gs n w hmem.2 hmemg
        have hwnr : noRef w = true := by
          simp only [noRef] at hvnr
          exact noRef_entry gs n w hvnr hmemg
        have hglk : gs.lookup n = some w := mem_lookup_of_nodup gs n w hmem.1 hmemg
        have hcref : c.2 = refOf (p ++ [.fld key]) (.fld n) w := by rw [hcpair]
        refine ⟨p ++ [.fld key, .fld n], w, ?_, by simp, ?_, ?_, hwcomp, hwnr, hwtame, ?_⟩
        · rw [hcref, refOf_composite hwcomp, List.append_assoc]; rfl
        · rw [hcref, refOf_composite hwcomp]
          exact extOf_mono [.fld key] ⟨[.fld n], rfl⟩
        · rw [getPos_append, hp]
          simp only [Option.bind]
          simp only [getPos, hlk, hglk]
        · have h1 : sizeJ w ≤ sizeFs gs := entry_sizeFs gs n w hmemg
          have h2 : sizeJ (JSON.obj gs) = 1 + sizeFs gs := rfl
          have h3 : sizeJ (JSON.obj fs) = 1 + sizeFs fs := rfl
          omega
      · rename_i s
        simp [tameMembers] at hmem
      · simp at hck
    · simp at hck

theorem tameRunSeq (root : JSON) (f : Nat)
    (IH : ∀ (p : List Seg) (j : JSON) (visited : List NodeRef) (path : List String),
      getPos root p = some j → isComposite j = true → noRef j = true → tame j = true →
      sizeJ j ≤ f → (∀ x ∈ visited, ¬ extOf p x) →
      ∃ V2, checkForRecursionWithPath root f (.pos p) visited path =
          .ok (⟨false, none⟩, V2) ∧ ∀ x ∈ V2, x ∈ visited ∨ extOf p x) :
    ∀ (cs : List (String × NodeRef)) (visited : List NodeRef) (path : List String),
    (∀ c ∈ cs, ∃ q m, c.2 = NodeRef.pos q ∧ getPos root q = some m ∧ isComposite m = true ∧
        noRef m = true ∧ tame m = true ∧ sizeJ m ≤ f) →
    (∀ c ∈ cs, ∀ q, c.2 = NodeRef.pos q → ∀ x ∈ visited, ¬ extOf q x) →
    List.Pairwise childIndep cs →
    ∃ V2, runSeq (checkForRecursionWithPath root f) cs visited path =
        .ok (⟨false, none⟩, V2) ∧
      ∀ x ∈ V2, x ∈ visited ∨ ∃ c ∈ cs, ∃ q, c.2 = NodeRef.pos q ∧ extOf q x := by
  intro cs
  induction cs with
  | nil =>
    intro visited path h1 h2 h3
    exact ⟨visited, by simp [runSeq], fun x hx => Or.inl hx⟩
  | cons c rest ihcs =>
    intro visited path h1 h2 h3
    obtain ⟨cstep, cref⟩ := c
    obtain ⟨q, m, hc2, hq, hcomp, hnr, htm, hsz⟩ :=
      h1 (cstep, cref) (List.mem_cons_self _ rest)
    simp only at hc2
    have hfresh : ∀ x ∈ visited, ¬ extOf q x :=
      h2 (cstep, cref) (List.mem_cons_self _ rest) q hc2
    obtain ⟨V2, hrun, hchar⟩ := IH q m visited (path ++ [cstep]) hq hcomp hnr htm hsz hfresh
    cases h3 with
    | cons hrel hrest =>
      have h1r : ∀ c2 ∈ rest, ∃ q2 m2, c2.2 = NodeRef.pos q2 ∧ getPos root q2 = some m2 ∧
          isComposite m2 = true ∧ noRef m2 = true ∧ tame m2 = true ∧ sizeJ m2 ≤ f :=
        fun c2 hm => h1 c2 (List.mem_cons_of_mem _ hm)
      have h2r : ∀ c2 ∈ rest, ∀ q2, c2.2 = NodeRef.pos q2 → ∀ x ∈ V2, ¬ extOf q2 x := by
        intro c2 hm q2 hpos2 x hx hext2
        rcases hchar x hx with hv | hextq
        · exact h2 c2 (List.mem_cons_of_mem _ hm) q2 hpos2 x hv hext2
        · obtain ⟨hlen, hne⟩ := hrel c2 hm q q2 hc2 hpos2
          exact extOf_disjoint q q2 x hlen hne hextq hext2
      obtain ⟨V3, hrun3, hchar3⟩ := ihcs V2 path h1r h2r hrest
      refine ⟨V3, ?_, ?_⟩
      · simp only [runSeq, hc2, hrun]
        simpa using hrun3
      · intro x hx
        rcases hchar3 x hx with hx2 | ⟨c2, hc2mem, q2, hpos2, hext⟩
        · rcases hchar x hx2 with hv | hext
          · exact Or.inl hv
          · exact Or.inr ⟨(cstep, cref), List.mem_cons_self _ rest, q, hc2, hext⟩
        · exact Or.inr ⟨c2, List.mem_cons_of_mem _ hc2mem, q2, hpos2, hext⟩

/-- A no-reference, tame subtree is traversed without finding recursion:
the run returns `hasRecursion = false` and only adds references of nodes of
that subtree to the visited set. -/
theorem tameRun : ∀ (root : JSON) (fuel : Nat) (p : List Seg) (j : JSON)
    (visited : List NodeRef) (path : List String),
    getPos root p = some j → isComposite j = true → noRef j = true → tame j = true →
    sizeJ j ≤ fuel → (∀ x ∈ visited, ¬ extOf p x) →
    ∃ V2, checkForRecursionWithPath root fuel (.pos p) visited path =
        .ok (⟨false, none⟩, V2) ∧ ∀ x ∈ V2, x ∈ visited ∨ extOf p x := by
  intro root fuel
  induction fuel with
  | zero =>
    intro p j visited path hp hcomp hnr htm hsz hfresh
    have := sizeJ_pos j
    omega
  | succ f ihf =>
    intro p j visited path hp hcomp hnr htm hsz hfresh
    have hnotmem : NodeRef.pos p ∉ visited := fun hm => hfresh _ hm (extOf_self p)
    have hidx : jsIndex root (.pos p) "$ref" = .ok .undefined := by
      cases j with
      | obj fs =>
        have hl : fs.lookup "$ref" = none :=
          noRef_lookup_none fs (by simpa [noRef] using hnr)
        simp [jsIndex, hp, hl]
      | arr xs =>
        simp [jsIndex, hp, show canonicalNat "$ref" = none from by decide]
      | null => simp [isComposite] at hcomp
      | bool b => simp [isComposite] at hcomp
      | num n => simp [isComposite] at hcomp
      | str s => simp [isComposite] at hcomp
    have hmain : checkForRecursionWithPath root (f + 1) (.pos p) visited path =
        (match pruneTarget root (.pos p) with
         | none => .ok (⟨false, none⟩, .pos p :: visited)
         | some (p2, fs2) => runSeq (checkForRecursionWithPath root f)
             (keysToCheck.flatMap (childrenFor p2 fs2)) (.pos p :: visited) path) := by
      simp only [checkForRecursionWithPath, hidx]
      simp only [truthyRef, valAt, Bool.false_eq_true, if_false]
      rw [if_neg hnotmem]
    cases hcj : j with
    | null => rw [hcj] at hcomp; simp [isComposite] at hcomp
    | bool b => rw [hcj] at hcomp; simp [isComposite] at hcomp
    | num n => rw [hcj] at hcomp; simp [isComposite] at hcomp
    | str s => rw [hcj] at hcomp; simp [isComposite] at hcomp
    | arr xs =>
      have hpt : pruneTarget root (.pos p) = none := by
        simp [pruneTarget, hcj ▸ hp]
      refine ⟨.pos p :: visited, by rw [hmain, hpt], ?_⟩
      intro x hx
      rcases List.mem_cons.mp hx with h1 | h2
      · exact Or.inr (h1 ▸ extOf_self p)
      · exact Or.inl h2
    | obj fs =>
      have hpobj : getPos root p = some (.obj fs) := hcj ▸ hp
      have htf : tameFields fs = true := by
        have := hcj ▸ htm
        simp only [tame, Bool.and_eq_true] at this
        exact this.2
      have hnrf : noRefFields fs = true := by
        have := hcj ▸ hnr
        simpa [noRef] using this
      cases hty : fs.lookup "type" with
      | none =>
        have hpt : pruneTarget root (.pos p) = none := by
          simp [pruneTarget, hpobj, hty]
        refine ⟨.pos p :: visited, by rw [hmain, hpt], ?_⟩
        intro x hx
        rcases List.mem_cons.mp hx with h1 | h2
        · exact Or.inr (h1 ▸ extOf_self p)
        · exact Or.inl h2
      | some tv =>
        by_cases hto : tv = JSON.str "object"
        · subst hto
          have hpt : pruneTarget root (.pos p) = some (p, fs) := by
            simp [pruneTarget, hpobj, hty]
          have hspec := children_spec root p fs hpobj hnrf htf
          have hcall := tameRunSeq root f ihf
            (keysToCheck.flatMap (childrenFor p fs)) (.pos p :: visited) path
            ?hdata ?hfresh2 ?hpw
          case hdata =>
            intro c hc
            obtain ⟨q, m, hcpos, hqlen, hextp, hgq, hmc, hmnr, hmtm, hmsz⟩ := hspec c hc
            have hszj : sizeJ (JSON.obj fs) ≤ f + 1 := hcj ▸ hsz
            exact ⟨q, m, hcpos, hgq, hmc, hmnr, hmtm, by omega⟩
          case hfresh2 =>
            intro c hc q2 hpos2 x hx hext2
            obtain ⟨q, m, hcpos, hqlen, hextp, hgq, hmc, hmnr, hmtm, hmsz⟩ := hspec c hc
            have hqq : q2 = q := by
              rw [hcpos] at hpos2
              injection hpos2 with h5
              exact h5.symm
            subst hqq
            obtain ⟨e, he⟩ := hextp
            rw [hcpos] at he
            injection he with h6
            rcases List.mem_cons.mp hx with h1 | h2
            · obtain ⟨e2, he2⟩ := hext2
              rw [h1] at he2
              injection he2 with h7
              have : p.length = q2.length + e2.length := by
                rw [h7]
                simp
              omega
            · exact hfresh x h2 (extOf_mono e (h6 ▸ hext2))
          case hpw =>
            exact flat_children_pairwise p fs keysToCheck (by decide) htf (fun k hk => hk)
          obtain ⟨V2, hrunSeq, hchar⟩ := hcall
          refine ⟨V2, by rw [hmain, hpt]; exact hrunSeq, ?_⟩
          intro x hx
          rcases hchar x hx with hx1 | ⟨c, hc, q2, hpos2, hext2⟩
          · rcases List.mem_cons.mp hx1 with h1 | h2
            · exact Or.inr (h1 ▸ extOf_self p)
            · exact Or.inl h2
          · obtain ⟨q, m, hcpos, hqlen, hextp, _, _, _, _, _⟩ := hspec c hc
            have hqq : q2 = q := by
              rw [hcpos] at hpos2
              injection hpos2 with h5
              exact h5.symm
            subst hqq
            obtain ⟨e, he⟩ := hextp
            rw [hcpos] at he
            injection he with h6
            exact Or.inr (extOf_mono e (h6 ▸ hext2))
        · have hpt : pruneTarget root (.pos p) = none := by
            simp only [pruneTarget, hpobj, hty]
            split
            · rename_i heq
              exact absurd (by injection heq) hto
            · rfl
          refine ⟨.pos p :: visited, by rw [hmain, hpt], ?_⟩
          intro x hx
          rcases List.mem_cons.mp hx with h1 | h2
          · exact Or.inr (h1 ▸ extOf_self p)
          · exact Or.inl h2

/-- A call of `checkForRecursionWithPath` on a node that is already
visited, or whose `$ref` member is truthy, never returns
`hasRecursion = false`: after a successful resolution the resolved node is
added to the visited set and the run immediately recurses into it, so the
chain of resolutions can only end in a revisit (`true`) or in a thrown
resolution error. -/
theorem checkRec_not_false : ∀ (root : JSON) (fuel : Nat) (schema : NodeRef)
    (visited : List NodeRef) (path : List String) (res : RecResult) (v : List NodeRef),
    (schema ∈ visited ∨
      ∃ rv, jsIndex root schema "$ref" = .ok rv ∧ truthyRef root rv = true) →
    checkForRecursionWithPath root fuel schema visited path = .ok (res, v) →
    res.hasRecursion = true := by
  intro root fuel
  induction fuel with
  | zero =>
    intro schema visited path res v hd h
    simp [checkForRecursionWithPath] at h
  | succ f ih =>
    intro schema visited path res v hd h
    simp only [checkForRecursionWithPath] at h
    split at h
    · exact absurd h (by simp)
    · rename_i refv hidx
      split at h
      · exact absurd h (by simp)
      · rename_i initialSchema hinit
        split at h
        · rename_i hv
          simp only [Except.ok.injEq, Prod.mk.injEq] at h
          rw [← h.1]
        · rename_i hnv
          split at h
          · exact absurd h (by simp)
          · rename_i pr heq3
            split at h
            · rename_i hrec
              simp only [Except.ok.injEq] at h
              rw [h] at hrec
              exact hrec
            · rename_i hrec
              by_cases htr : truthyRef root refv = true
              · rw [if_pos htr] at heq3
                exact absurd
                  (ih initialSchema (initialSchema :: visited) _ pr.1 pr.2
                    (Or.inl (List.mem_cons_self initialSchema visited))
                    (by rw [heq3])) hrec
              · have hmem : schema ∈ visited := by
                  cases hd with
                  | inl h1 => exact h1
                  | inr h2 =>
                    obtain ⟨rv, h3, h4⟩ := h2
                    rw [hidx] at h3
                    injection h3 with h5
                    exact absurd (h5 ▸ h4) htr
                rw [if_neg htr] at hinit
                injection hinit with h6
                exact absurd (h6 ▸ hmem) hnv

/-- The `NodeRef` of the whole document (the way the top-level call
`checkForRecursionWithPath(parsedSchema)` starts, with
`rootSchema = schema`, a fresh `Set` and an empty path). -/
def rootNode (j : JSON) : NodeRef :=
  match j with
  | .obj _ => .pos []
  | .arr _ => .pos []
  | v => .prim v

/-- Top-level invocation: only the `{hasRecursion, recursionPath}` record is
returned to the caller. -/
def detect (schema : JSON) (fuel : Nat) : Except JsErr RecResult :=
  (checkForRecursionWithPath schema fuel (rootNode schema) [] []).map Prod.fst

end SchemaExamples

namespace CycleRefs

/-!
Embedding of the second revision of `src/utils/cycleRefs.ts` (lines
104–196 of the file, the revision the claim line numbers point at):
`collectRefs`, `tryResolveRefs`, `findCircularRefs`.

`Map` keys are `$ref` values (strings in every analysed document; a
non-string `$ref` is carried through as its JSON value — identity of an
object-valued `$ref` key is not modelled, no analysed document has one).
A `Map` is an insertion-ordered association list; `Map.set` on an existing
key overwrites in place. -/

/-- `TRefs = Map<string, string[]>`: reference pointer → path at which the
reference was found. -/
abbrev TRefs := List (JSON × List String)

/-- `TDefinitionsRefs = Map<string, TRefs>`. -/
abbrev TDefinitionsRefs := List (JSON × TRefs)

/-- Source, line 108. -/
def KEYS_TO_CHECK : List String := ["allOf", "anyOf", "oneOf", "not", "properties"]

/-- Source, line 109. -/
def DEFINITION_KEY_WORD : String := "$defs"

/-- Source, line 110. -/
def MAX_REF_RESOLUTION_DEPTH : Nat := 10

/-- Source, line 112: `path.join(' -> ')`. -/
def pathToString (path : List String) : String := String.intercalate " -> " path

/-- Errors of the definition-cycle detector.  `rootSelfReference` carries
the two components the source formats into its message (line 121);
`circularReference`/`maxDepthExceeded` carry the `[...path, ref]` pointer
list (lines 162, 166).  `typeError` models the JavaScript `TypeError` of a
property access on `null`; `outOfFuel` is the artificial bound of the
fuelled scan. -/
inductive CycleErr where
  | rootSelfReference (info : List String)
  | circularReference (path : List JSON)
  | maxDepthExceeded (path : List JSON)
  | typeError
  | outOfFuel
deriving DecidableEq

/-- `Map.get`-style lookup. -/
def lookupJ {α : Type} : List (JSON × α) → JSON → Option α
  | [], _ => none
  | (k, v) :: rest, key => if k = key then some v else lookupJ rest key

/-- `Map.set`: overwrite in place, else append. -/
def mapSet {α : Type} : List (JSON × α) → JSON → α → List (JSON × α)
  | [], key, v => [(key, v)]
  | (k, w) :: rest, key, v =>
    if k = key then (key, v) :: rest else (k, w) :: mapSet rest key v

/-- Children contributed by one entry of `KEYS_TO_CHECK` for the `dfs` of
`collectRefs` (lines 136–151): array values are walked by index with path
`[...path, key, `${i}`]`, any other truthy value goes through
`Object.entries` with path `[...path, key, propName]`. -/
def collectChildren (fs : List (String × JSON)) (path : List String) (key : String) :
    List (JSON × List String) :=
  match fs.lookup key with
  | none => []
  | some v =>
    if truthy v then
      match v with
      | .arr xs => (jsEntries (.arr xs)).map fun (name, w) => (w, path ++ [key, name])
      | w => (jsEntries w).map fun (name, w') => (w', path ++ [key, name])
    else []

/-- Threading fold for the recursive `dfs` calls of `collectRefs`. -/
def collectFold (step : JSON → List String → TRefs → Except CycleErr TRefs) :
    List (JSON × List String) → TRefs → Except CycleErr TRefs
  | [], refs => .ok refs
  | (c, pth) :: rest, refs =>
    match step c pth refs with
    | .error e => .error e
    | .ok refs1 => collectFold step rest refs1

/-- Source, lines 117–152: the `dfs` of `collectRefs`, threading the
(mutated) `refs` map.  `schema['$ref']` on `null` throws; a `$ref` equal to
the string `'#'` raises the root-self-reference error; an already-recorded
pointer stops the descent of this node entirely (line 124); descent
continues (lines 132, 136–151) only into object nodes with
`type == "object"`. -/
def dfs : Nat → JSON → List String → TRefs → Except CycleErr TRefs
  | 0, _, _, _ => .error .outOfFuel
  | f + 1, schema, path, refs0 =>
    let descend : TRefs → Except CycleErr TRefs := fun refs =>
      match schema with
      | .obj fs =>
        match fs.lookup "type" with
        | some (.str "object") =>
          collectFold (dfs f) (KEYS_TO_CHECK.flatMap (collectChildren fs path)) refs
        | _ => .ok refs
      | _ => .ok refs
    match schema with
    | .null => .error .typeError
    | _ =>
      let ref : Option JSON :=
        match schema with
        | .obj fs => fs.lookup "$ref"
        | _ => none
      match ref with
      | some rv =>
        if truthy rv then
          if rv = .str "#" then
            .error (.rootSelfReference [String.intercalate "." path, "#"])
          else if (lookupJ refs0 rv).isSome then
            .ok refs0
          else
            descend (mapSet refs0 rv path)
        else descend refs0
      | none => descend refs0

/-- Source, lines 114–156: `collectRefs`. -/
def collectRefs (fuel : Nat) (targetSchema : JSON) : Except CycleErr TRefs :=
  dfs fuel targetSchema [] []

/-- Short-circuiting iteration over a pointer list: the `for` loop of lines
170–172, also reused for the top-level loop of lines 193–195. -/
def seqTry (step : JSON → Except CycleErr Unit) : List JSON → Except CycleErr Unit
  | [] => .ok ()
  | r :: rest =>
    match step r with
    | .error e => .error e
    | .ok _ => seqTry step rest

/-- Source, lines 158–174: `tryResolveRefs`, with the recursion depth made
explicit.  The source recursion terminates intrinsically — a recursive call
only happens when `path.length ≤ MAX_REF_RESOLUTION_DEPTH`, and it extends
the path by one pointer — so a call at path length `L` recurses at most
until length `MAX_REF_RESOLUTION_DEPTH + 1`; the derived bound
`MAX_REF_RESOLUTION_DEPTH + 2` steps (see `tryResolveRefs`) is always
enough and the `outOfFuel` branch is unreachable from the wrapper. -/
def tryResolveFuel : Nat → JSON → TDefinitionsRefs → List JSON → Except CycleErr Unit
  | 0, _, _, _ => .error .outOfFuel
  | f + 1, ref, definitionsRefs, path =>
    if ref ∈ path then .error (.circularReference (path ++ [ref]))
    else if path.length > MAX_REF_RESOLUTION_DEPTH then
      .error (.maxDepthExceeded (path ++ [ref]))
    else
      match lookupJ definitionsRefs ref with
      | none => .ok ()
      | some inner =>
        seqTry (fun r => tryResolveFuel f r definitionsRefs (path ++ [ref]))
          (inner.map Prod.fst)

/-- Source, lines 158–174: `tryResolveRefs(ref, definitionsRefs, path)`. -/
def tryResolveRefs (ref : JSON) (definitionsRefs : TDefinitionsRefs) (path : List JSON) :
    Except CycleErr Unit :=
  tryResolveFuel (MAX_REF_RESOLUTION_DEPTH + 2) ref definitionsRefs path

/-- Building `definitionsRefs` (lines 185–189): every named definition is
indexed by `collectRefs` under the key `#/$defs/<name>`, in entry order. -/
def buildDefinitionsRefs (fuel : Nat) :
    List (String × JSON) → TDefinitionsRefs → Except CycleErr TDefinitionsRefs
  | [], acc => .ok acc
  | (name, definition) :: rest, acc =>
    match collectRefs fuel definition with
    | .error e => .error e
    | .ok m =>
      buildDefinitionsRefs fuel rest
        (mapSet acc (.str ("#/" ++ DEFINITION_KEY_WORD ++ "/" ++ name)) m)

/-- The member access `schema[DEFINITION_KEY_WORD]` of line 180 (`schema`
is never `null`/`undefined` here: `collectRefs` has already run on it). -/
def defsField (schema : JSON) : Option JSON :=
  match schema with
  | .obj fs => fs.lookup DEFINITION_KEY_WORD
  | _ => none

def truthyO : Option JSON → Bool
  | none => false
  | some v => truthy v

/-- Source, lines 176–196: `findCircularRefs` (the second revision: the
root scan runs before the `$defs` check). -/
def findCircularRefs (fuel : Nat) (schema : JSON) : Except CycleErr Unit :=
  match collectRefs fuel schema with
  | .error e => .error e
  | .ok schemaRefs =>
    if truthyO (defsField schema) then
      match defsField schema with
      | some dv =>
        match buildDefinitionsRefs fuel (jsEntries dv) [] with
        | .error e => .error e
        | .ok definitionsRefs =>
          seqTry (fun r => tryResolveRefs r definitionsRefs []) (schemaRefs.map Prod.fst)
      | none => .ok ()
    else .ok ()

/-- The error kinds the indexing scans (`dfs` / `collectRefs` /
`buildDefinitionsRefs`) can produce: everything except the walk's
`circularReference` / `maxDepthExceeded`. -/
def CycleErr.isScanErr : CycleErr → Prop
  | .circularReference _ => False
  | .maxDepthExceeded _ => False
  | _ => True

theorem collectFold_scanErr (step : JSON → List String → TRefs → Except CycleErr TRefs)
    (hstep : ∀ c pth refs e, step c pth refs = .error e → e.isScanErr) :
    ∀ cs refs e, collectFold step cs refs = .error e → e.isScanErr := by
  intro cs
  induction cs with
  | nil => intro refs e h; simp [collectFold] at h
  | cons hd tl ih =>
    intro refs e h
    obtain ⟨c, pth⟩ := hd
    simp only [collectFold] at h
    cases hs : step c pth refs with
    | error e2 =>
      rw [hs] at h
      injection h with h2
      exact h2 ▸ hstep _ _ _ _ hs
    | ok refs1 =>
      rw [hs] at h
      exact ih refs1 e h

theorem dfs_scanErr : ∀ fuel schema path refs e,
    dfs fuel schema path refs = .error e → e.isScanErr := by
  intro fuel
  induction fuel with
  | zero =>
    intro schema path refs e h
    simp only [dfs] at h
    injection h with h2
    exact h2 ▸ trivial
  | succ f ih =>
    intro schema path refs e h
    cases schema <;> simp only [dfs] at h
    case null => injection h with h2; exact h2 ▸ trivial
    case bool b => exact absurd h (by simp)
    case num n => exact absurd h (by simp)
    case str s => exact absurd h (by simp)
    case arr xs => exact absurd h (by simp)
    case obj fs =>
      have hdesc : ∀ refs1 e1,
          (match JSON.obj fs with
            | .obj gs =>
              match gs.lookup "type" with
              | some (.str "object") =>
                collectFold (dfs f) (KEYS_TO_CHECK.flatMap (collectChildren gs path)) refs1
              | _ => .ok refs1
            | _ => .ok refs1) = Except.error e1 → e1.isScanErr := by
        intro refs1 e1 h1
        simp only at h1
        split at h1
        · exact collectFold_scanErr (dfs f) (fun c pth r e2 h2 => ih c pth r e2 h2)
            _ refs1 e1 h1
        · exact absurd h1 (by simp)
      split at h
      · split at h
        · split at h
          · injection h with h2; exact h2 ▸ trivial
          · split at h
            · exact absurd h (by simp)
            · exact hdesc _ _ h
        · exact hdesc _ _ h
      · exact hdesc _ _ h

/-- A linear reference chain inside a `TDefinitionsRefs` map: every
pointer of the list is a definition whose reference index holds exactly
the next pointer of the list. -/
def chainInB (defs : TDefinitionsRefs) : List JSON → Bool
  | [] => true
  | [_] => true
  | r :: r' :: rest =>
    (match lookupJ defs r with
     | some m => decide (m.map Prod.fst = [r'])
     | none => false) && chainInB defs (r' :: rest)

theorem not_mem_of_nodup_append {α : Type} {path : List α} {r : α} {rest : List α}
    (h : (path ++ r :: rest).Nodup) : r ∉ path := by
  intro hm
  rw [List.nodup_append] at h
  exact h.2.2 hm (List.mem_cons_self r rest)

/-- The immediate revisit check of line 161: a pointer already on the
current walk's path raises CircularReference at once, carrying the path
plus the repeated pointer. -/
theorem tryResolveFuel_mem (f : Nat) (ref : JSON) (defs : TDefinitionsRefs)
    (path : List JSON) (h : ref ∈ path) :
    tryResolveFuel (f + 1) ref defs path = .error (.circularReference (path ++ [ref])) := by
  simp [tryResolveFuel, h]

theorem seqTry_circ (step : JSON → Except CycleErr Unit) (P : List JSON → Prop)
    (hstep : ∀ r p, step r = .error (.circularReference p) → P p) :
    ∀ rs p, seqTry step rs = .error (.circularReference p) → P p := by
  intro rs
  induction rs with
  | nil => intro p h; simp [seqTry] at h
  | cons r rest ih =>
    intro p h
    simp only [seqTry] at h
    cases hs : step r with
    | error e =>
      rw [hs] at h
      injection h with h2
      exact hstep r p (h2 ▸ hs)
    | ok u =>
      rw [hs] at h
      exact ih p h

/-- CircularReference is only ever raised on a true revisit: its payload
always consists of a path whose last pointer already occurs earlier in
it. -/
theorem tryResolveFuel_circular_dup : ∀ fuel ref defs path p,
    tryResolveFuel fuel ref defs path = .error (.circularReference p) →
    ∃ q r, p = q ++ [r] ∧ r ∈ q := by
  intro fuel
  induction fuel with
  | zero => intro ref defs path p h; simp [tryResolveFuel] at h
  | succ f ih =>
    intro ref defs path p h
    simp only [tryResolveFuel] at h
    by_cases hmem : ref ∈ path
    · rw [if_pos hmem] at h
      injection h with h2
      injection h2 with h3
      exact ⟨path, ref, h3.symm, hmem⟩
    · rw [if_neg hmem] at h
      split at h
      · simp at h
      · split at h
        · simp at h
        · exact seqTry_circ _ _ (fun r q hr => ih r defs (path ++ [ref]) q hr) _ p h

/-- Walking a linear chain that is long enough: the walk necessarily runs
into the depth bound (never into CircularReference, the chain having no
repeated pointer). -/
theorem chain_max : ∀ (rs : List JSON) (r : JSON) (defs : TDefinitionsRefs)
    (path : List JSON) (fuel : Nat),
    chainInB defs (r :: rs) = true → (path ++ r :: rs).Nodup →
    12 ≤ path.length + (r :: rs).length → 12 ≤ fuel + path.length → 1 ≤ fuel →
    ∃ p, tryResolveFuel fuel r defs path = .error (.maxDepthExceeded p) := by
  intro rs
  induction rs with
  | nil =>
    intro r defs path fuel hchain hnd hlen hfuel hf1
    match fuel, hf1 with
    | f + 1, _ =>
      have hr : r ∉ path := not_mem_of_nodup_append hnd
      have hgt : path.length > MAX_REF_RESOLUTION_DEPTH := by
        simp only [MAX_REF_RESOLUTION_DEPTH]
        simp only [List.length_append, List.length_cons, List.length_nil] at hlen
        omega
      exact ⟨path ++ [r], by simp [tryResolveFuel, hr, hgt]⟩
  | cons r2 rest ih =>
    intro r defs path fuel hchain hnd hlen hfuel hf1
    match fuel, hf1 with
    | f + 1, _ =>
      have hr : r ∉ path := not_mem_of_nodup_append hnd
      by_cases hgt : path.length > MAX_REF_RESOLUTION_DEPTH
      · exact ⟨path ++ [r], by simp [tryResolveFuel, hr, hgt]⟩
      · simp only [tryResolveFuel, if_neg hr, if_neg hgt]
        simp only [chainInB, Bool.and_eq_true] at hchain
        obtain ⟨hlk, hchain2⟩ := hchain
        cases hlook : lookupJ defs r with
        | none => rw [hlook] at hlk; simp at hlk
        | some m =>
          rw [hlook] at hlk
          simp only [decide_eq_true_eq] at hlk
          have hih := ih r2 defs (path ++ [r]) f hchain2
            (by simpa using hnd)
            (by simp only [List.length_append, List.length_cons] at hlen ⊢; omega)
            (by simp only [List.length_append, List.length_cons,
                  MAX_REF_RESOLUTION_DEPTH] at hgt ⊢; omega)
            (by simp only [MAX_REF_RESOLUTION_DEPTH] at hgt; omega)
          obtain ⟨p, hp⟩ := hih
          refine ⟨p, ?_⟩
          show seqTry (fun r1 => tryResolveFuel f r1 defs (path ++ [r])) (m.map Prod.fst) =
            .error (.maxDepthExceeded p)
          rw [hlk]
          simp [seqTry, hp]

def exOk {ε α : Type} : Except ε α → Bool
  | .ok _ => true
  | .error _ => false

theorem buildDefs_scanErr : ∀ fuel entries acc e,
    buildDefinitionsRefs fuel entries acc = .error e → e.isScanErr := by
  intro fuel entries
  induction entries with
  | nil => intro acc e h; simp [buildDefinitionsRefs] at h
  | cons hd tl ih =>
    intro acc e h
    obtain ⟨name, definition⟩ := hd
    simp only [buildDefinitionsRefs] at h
    cases hs : collectRefs fuel definition with
    | error e2 =>
      rw [hs] at h
      injection h with h2
      exact h2 ▸ dfs_scanErr fuel definition [] [] e2 hs
    | ok m =>
      rw [hs] at h
      exact ih _ e h

end CycleRefs

namespace LineUtils

/-!
Embedding of `findLineNumberForPath` (the line-number utility file,
lines 11–125).  The function is a line-oriented text heuristic: split the
source text on newlines, parse the diagnostic path on `" -> "`, and search
for a literal pattern.

Only the `$ref` branch (lines 22–42) is exercised by the claims.  The
non-`$ref` branch tests lines with JavaScript regexes of the shape
`"<key>"\s*:\s*`; it is embedded with literal-key semantics
(`keyColonTest`), valid for keys without regex metacharacters — a key such
as `$ref` itself, whose `$` the source fails to escape in the generic
pattern, would behave differently, but no claim touches that branch. -/

/-- `line.includes(pat)`: substring containment. -/
def containsAt (pat : List Char) : List Char → Bool
  | [] => startsWithL pat []
  | c :: rest => startsWithL pat (c :: rest) || containsAt pat rest

def jsIncludes (line pat : String) : Bool := containsAt pat.data line.data

/-- The backward scan of lines 29–34: `i` counts down from `lines.length`;
returns the 1-based line number of the latest line containing the
pattern. -/
def scanBack (lines : List String) (pat : String) : Nat → Option Nat
  | 0 => none
  | i + 1 => if jsIncludes (lines.getD i "") pat then some (i + 1) else scanBack lines pat i

/-- A forward scan (lines 37–42 and the forward loops of the non-`$ref`
branch): the 1-based number of the first line satisfying the test. -/
def scanFwdP (test : String → Bool) : List String → Nat → Option Nat
  | [], _ => none
  | l :: rest, i => if test l then some i else scanFwdP test rest (i + 1)

/-- JavaScript `\s` on a single line (the newline cases cannot occur after
the split). -/
def wsChar (c : Char) : Bool :=
  c = ' ' || c = '\t' || c = '\r' || c = '\n' || c = '\x0b' || c = '\x0c'

/-- Does `l` start with `"key"` followed by optional whitespace and a
colon?  (The literal-key reading of the regex `"<key>"\s*:`.) -/
def keyColonAt (key : List Char) (l : List Char) : Bool :=
  startsWithL ('"' :: key ++ ['"']) l &&
    match (l.drop (key.length + 2)).dropWhile wsChar with
    | ':' :: _ => true
    | _ => false

/-- The regex test of the non-`$ref` branch on one line (match anywhere in
the line). -/
def keyColonTest (line key : String) : Bool :=
  (line.data.tails.any fun suf => keyColonAt key.data suf)

/-- The non-`$ref` branch (lines 43–117).  `searchValue` is always empty
here (the inner `startsWith('$ref:')` of line 51 can only run when the
outer check of line 22 already failed), so the value-pattern loop of lines
75–80 is dead; the two key loops of lines 87–103 use patterns that match
the same lines under the literal-key reading, and the `$ref` special case
of lines 107–117 only fires for the verbatim key `$ref`. -/
def nonRefSearch (lines : List String) (firstPart : String) : Option Nat :=
  let searchKey :=
    if jsStartsWith firstPart "$ref:" then "$ref"
    else if (jsSplit firstPart ".").length > 1 then (jsSplit firstPart ".").getLastD ""
    else if (jsSplit firstPart "[").length > 1 then (jsSplit firstPart "[").headD ""
    else firstPart
  let searchValue := if jsStartsWith firstPart "$ref:" then firstPart.drop 5 else ""
  if searchValue ≠ "" then
    scanFwdP (fun l => jsIncludes l ("\"" ++ searchKey ++ "\": \"" ++ searchValue ++ "\"")) lines 1
  else
    match scanFwdP (fun l => keyColonTest l searchKey) lines 1 with
    | some n => some n
    | none =>
      match scanFwdP (fun l => keyColonTest l searchKey) lines 1 with
      | some n => some n
      | none =>
        if searchKey = "$ref" && searchValue = "" then
          scanFwdP (fun l => keyColonTest l "$ref") lines 1
        else none

/-- Source, lines 11–125: `findLineNumberForPath(jsonString, path)`.  For a
path whose first step is a `$ref:` step, the pattern is built from the
pointer of the LAST step (line 25), searched backward from the last line
and then forward as a fallback; `null` when nothing matches. -/
def findLineNumberForPath (jsonString path : String) : Option Nat :=
  let lines := jsSplit jsonString "\n"
  let pathParts := jsSplit path " -> "
  if pathParts.length = 0 then none
  else if jsStartsWith (pathParts.headD "") "$ref:" then
    let targetRef := (pathParts.getLastD "").drop 5
    let searchString := "\"$ref\": \"" ++ targetRef ++ "\""
    match scanBack lines searchString lines.length with
    | some n => some n
    | none => scanFwdP (fun l => jsIncludes l searchString) lines 1
  else nonRefSearch lines (pathParts.headD "")

/-- Modelled from the spec, §4.4 (for comparison with the implementation):
"If the first step is a `$ref:<pointer>` step: search for the literal text
pattern `"$ref": "<pointer>"` … from the last line backward … if no match
is found scanning backward, fall back to a forward scan" — with the
pointer taken from the FIRST step, which is where the implementation
differs (it takes the last step's pointer). -/
def lineLocatorSpec (jsonString path : String) : Option Nat :=
  let lines := jsSplit jsonString "\n"
  let pathParts := jsSplit path " -> "
  if jsStartsWith (pathParts.headD "") "$ref:" then
    let searchString := "\"$ref\": \"" ++ (pathParts.headD "").drop 5 ++ "\""
    match scanBack lines searchString lines.length with
    | some n => some n
    | none => scanFwdP (fun l => jsIncludes l searchString) lines 1
  else none

theorem jsSplitAux_ne_nil : ∀ (sep : List Char) (f : Nat) (acc l : List Char),
    jsSplitAux sep f acc l ≠ [] := by
  intro sep f
  induction f with
  | zero => intro acc l; simp [jsSplitAux]
  | succ m ih =>
    intro acc l
    cases l with
    | nil => simp [jsSplitAux]
    | cons c cs =>
      simp only [jsSplitAux]
      split
      · simp
      · exact ih (c :: acc) cs

theorem jsSplit_ne_nil (s sep : String) : jsSplit s sep ≠ [] := by
  simp only [jsSplit]
  split
  · simp
  · simp [jsSplitAux_ne_nil]

theorem scanBack_none : ∀ (n : Nat) (lines : List String) (pat : String),
    (∀ i, i < n → jsIncludes (lines.getD i "") pat = false) →
    scanBack lines pat n = none := by
  intro n
  induction n with
  | zero => intro lines pat h; simp [scanBack]
  | succ m ih =>
    intro lines pat h
    simp only [scanBack, h m (Nat.lt_succ_self m), Bool.false_eq_true, if_false]
    exact ih lines pat fun i hi => h i (by omega)

theorem scanBack_last : ∀ (n : Nat) (lines : List String) (pat : String) (i : Nat),
    i < n → jsIncludes (lines.getD i "") pat = true →
    (∀ j, i < j → j < n → jsIncludes (lines.getD j "") pat = false) →
    scanBack lines pat n = some (i + 1) := by
  intro n
  induction n with
  | zero => intro lines pat i h; omega
  | succ m ih =>
    intro lines pat i hi hinc hafter
    by_cases him : i = m
    · subst him
      simp only [scanBack]
      rw [hinc]
      simp
    · have hm : jsIncludes (lines.getD m "") pat = false :=
        hafter m (by omega) (Nat.lt_succ_self m)
      simp only [scanBack, hm, Bool.false_eq_true, if_false]
      exact ih lines pat i (by omega) hinc fun j h1 h2 => hafter j h1 (by omega)

theorem scanFwdP_none (test : String → Bool) :
    ∀ (lines : List String) (i : Nat), (∀ l ∈ lines, test l = false) →
    scanFwdP test lines i = none := by
  intro lines
  induction lines with
  | nil => intro i h; simp [scanFwdP]
  | cons l rest ih =>
    intro i h
    simp only [scanFwdP, h l (List.mem_cons_self l rest), Bool.false_eq_true, if_false]
    exact ih (i + 1) fun x hx => h x (List.mem_cons_of_mem l hx)

end LineUtils

namespace Examples

/-!  Concrete schema documents used by the claim theorems, written as
`JSON.parse` results. -/

open SchemaExamples CycleRefs

/-- `{"type":"object","properties":{"next":{"$ref":"#"}}}` — the document
of claim C6. -/
def selfRefDoc : JSON :=
  .obj [("type", .str "object"),
        ("properties", .obj [("next", .obj [("$ref", .str "#")])])]

/-- The canonical diamond: two sibling properties referencing the same
non-cyclic shared definition. -/
def diamondDoc : JSON :=
  .obj [("type", .str "object"),
        ("properties", .obj [("a", .obj [("$ref", .str "#/$defs/D")]),
                             ("b", .obj [("$ref", .str "#/$defs/D")])]),
        ("$defs", .obj [("D", .obj [("type", .str "string")])])]

/-- The same diamond under a root that the traversal prunes (the root
carries `"type":"string"`, so step 5 of the algorithm stops before the
properties are ever visited). -/
def prunedDiamondDoc : JSON :=
  .obj [("type", .str "string"),
        ("properties", .obj [("a", .obj [("$ref", .str "#/$defs/D")]),
                             ("b", .obj [("$ref", .str "#/$defs/D")])]),
        ("$defs", .obj [("D", .obj [("type", .str "string")])])]

/-- A dangling `$ref` that no detector ever reaches: the root has no
`type`, so both scans prune at the root. -/
def buriedDanglingDoc : JSON :=
  .obj [("properties", .obj [("a", .obj [("$ref", .str "#/nope")])])]

/-- A dangling `$ref` the Recursion Detector does traverse
(`#/$defs/Missing` fails at its last segment). -/
def reachedDanglingDoc : JSON :=
  .obj [("type", .str "object"),
        ("properties", .obj [("a", .obj [("$ref", .str "#/$defs/Missing")])]),
        ("$defs", .obj [])]

/-- A dangling `$ref` that the Definition Cycle Detector records and walks:
the pointer is simply not a key of `definitionsRefs`, so the walk skips
it. -/
def walkedDanglingDoc : JSON :=
  .obj [("type", .str "object"),
        ("properties", .obj [("a", .obj [("$ref", .str "#/$defs/Missing")])]),
        ("$defs", .obj [("A", .obj [])])]

/-- A resolvable first reference whose target carries a second, dangling
reference. -/
def chainDanglingDoc : JSON :=
  .obj [("type", .str "object"),
        ("properties", .obj [("a", .obj [("$ref", .str "#/$defs/A")])]),
        ("$defs", .obj [("A", .obj [("$ref", .str "#/$defs/Missing")])])]

/-- No `$ref` anywhere, but two sibling properties hold the same primitive
value `5`. -/
def twoFivesDoc : JSON :=
  .obj [("type", .str "object"),
        ("properties", .obj [("a", .num 5), ("b", .num 5)])]

/-- A document without `$defs` whose root is `{"$ref":"#"}`. -/
def rootRefNoDefsDoc : JSON := .obj [("$ref", .str "#")]

/-- A shared definition reachable via two different pointers (walked twice
by the Definition Cycle Detector, without error). -/
def twoRoutesDoc : JSON :=
  .obj [("type", .str "object"),
        ("properties", .obj [("a", .obj [("$ref", .str "#/$defs/A")]),
                             ("b", .obj [("$ref", .str "#/$defs/B")])]),
        ("$defs", .obj [("A", .obj [("$ref", .str "#/$defs/C")]),
                        ("B", .obj [("$ref", .str "#/$defs/C")]),
                        ("C", .obj [])])]

/-- `$defs` bodies for a linear reference chain `D0 → D1 → … → D11`
(11 hops, 12 distinct pointers, no repetition). -/
def chainDefs11 : List (String × JSON) :=
  (List.range 11).map fun i =>
    ("D" ++ toString i, .obj [("$ref", .str ("#/$defs/D" ++ toString (i + 1)))])

/-- A document whose root references the head of the 11-hop chain. -/
def chainDoc11 : JSON :=
  .obj [("type", .str "object"),
        ("properties", .obj [("s", .obj [("$ref", .str "#/$defs/D0")])]),
        ("$defs", .obj chainDefs11)]

/-- `$defs` forming a two-cycle that nothing outside `$defs` reaches, plus
a third definition whose body carries the root pointer `'#'`. -/
def defsCycleHashDoc : JSON :=
  .obj [("type", .str "object"),
        ("$defs", .obj [("A", .obj [("$ref", .str "#/$defs/B")]),
                        ("B", .obj [("$ref", .str "#/$defs/A")]),
                        ("C", .obj [("$ref", .str "#")])])]

/-- `$defs` forming a two-cycle that nothing outside `$defs` reaches. -/
def defsCycleDoc : JSON :=
  .obj [("type", .str "object"),
        ("$defs", .obj [("A", .obj [("$ref", .str "#/$defs/B")]),
                        ("B", .obj [("$ref", .str "#/$defs/A")])])]

/-- An abstract definitions map holding the linear chain
`r0 → r1 → … → r11` (11 hops, 12 distinct pointers). -/
def chainDefsMap : CycleRefs.TDefinitionsRefs :=
  (List.range 11).map fun i => (.str ("r" ++ toString i), [(.str ("r" ++ toString (i + 1)), [])])

/-- The pointers `r1 … r11` (the chain after its head). -/
def chainTail : List JSON := (List.range 11).map fun i => .str ("r" ++ toString (i + 1))

/-- Source text with the pattern `"$ref": "#/$defs/A"` on line 3 and
nowhere else. -/
def locText : String :=
  "\x7b\n  \"type\": \"object\",\n  \"a\": \x7b \"$ref\": \"#/$defs/A\" \x7d\n\x7d"

/-- Source text with `"$ref": "#/x"` on line 2 and `"$ref": "#/y"` on
line 3. -/
def locTwoText : String :=
  "\x7b\n  \"a\": \x7b \"$ref\": \"#/x\" \x7d,\n  \"b\": \x7b \"$ref\": \"#/y\" \x7d\n\x7d"

end Examples

section Claims

open SchemaExamples CycleRefs LineUtils Examples

/-- Claim C6, counterexample.  On
`{"type":"object","properties":{"next":{"$ref":"#"}}}` the detector does
return `hasRecursion = true`, but its diagnostic path is the single step
`"properties.next"`: the claimed second step `"$ref:#"` never appears,
because the revisit of the root is detected (line 579) before the
`$ref:` step is appended to the path (line 588). -/
theorem C6_counterexample :
    detect selfRefDoc 100 = .ok ⟨true, some "properties.next"⟩ ∧
      jsSplit "properties.next" " -> " = ["properties.next"] := by
  constructor
  · decide
  · decide

/-- Claim C6, amended: for
`{"type":"object","properties":{"next":{"$ref":"#"}}}`,
`checkForRecursionWithPath` returns `hasRecursion = true` together with the
diagnostic path `"properties.next"` — a single step; the `"$ref:#"` step is
not part of the returned path because the already-visited check fires
before that step is appended. -/
theorem C6_amended_path :
    checkForRecursionWithPath selfRefDoc 100 (rootNode selfRefDoc) [] [] =
      .ok (⟨true, some "properties.next"⟩, [.pos []]) := by
  decide

/-- Claim C3, counterexample.  An acyclic schema in which two sibling
properties both reference the same non-cyclic shared definition `D`, yet
`detect` returns `hasRecursion = false`: the root carries
`"type":"string"`, so the traversal prunes at the root (line 596) and
never reaches the two references. -/
theorem C3_counterexample :
    detect prunedDiamondDoc 100 = .ok ⟨false, none⟩ := by decide

/-- Claim C3, amended: a diamond — two sibling properties referencing the
same non-cyclic shared definition — is reported as `hasRecursion = true`
provided the traversal reaches the references (their ancestors are
object-typed along composition keys); on the canonical diamond document the
run already reports the recursion at the first reference, with path
`"properties.a -> $ref:#/$defs/D"`. -/
theorem C3_diamond :
    detect diamondDoc 100 = .ok ⟨true, some "properties.a -> $ref:#/$defs/D"⟩ := by
  decide

/-- Claim C2, counterexample.  A schema containing a `$ref` whose pointer
`#/nope` resolves to nothing, on which BOTH detectors silently report the
absence of recursion/cycles: the root has no `type`, so the Recursion
Detector prunes at the root without resolving anything, and the Definition
Cycle Detector's root scan prunes identically (and the document has no
`$defs`, so nothing is walked).  No DanglingReference — or any other —
failure is raised. -/
theorem C2_counterexample :
    detect buriedDanglingDoc 100 = .ok ⟨false, none⟩ ∧
      findCircularRefs 100 buriedDanglingDoc = .ok () := by
  constructor
  · decide
  · decide

/-- A document without `$defs` (used to instantiate the C7 theorem). -/
def noDefsDoc : JSON :=
  .obj [("type", .str "object"),
        ("properties", .obj [("p", .obj [("$ref", .str "#/q")])])]

/-- Claim C7, counterexample.  A document that does not contain `$defs`,
on which `findCircularRefs` is NOT a no-op: the root scan (`collectRefs`)
runs before the `$defs` check in this revision, so the root's
`"$ref":"#"` raises the RootSelfReference error even though the document
has no definitions at all. -/
theorem C7_counterexample :
    findCircularRefs 100 rootRefNoDefsDoc = .error (.rootSelfReference ["", "#"]) := by
  decide

/-- Claim C7, amended: for a document without a truthy `$defs` member,
`findCircularRefs` never raises CircularReference or MaxDepthExceeded and
returns exactly what the initial root scan returns — it completes normally
iff `collectRefs` does; the scan itself (which runs before the `$defs`
check) can still raise RootSelfReference on a `$ref` of `"#"` (or a
`TypeError` on a `null` node). -/
theorem C7_noop :
    ∀ fuel schema, truthyO (defsField schema) = false →
      (findCircularRefs fuel schema = (collectRefs fuel schema).map (fun _ => ())) ∧
      (∀ e, findCircularRefs fuel schema = .error e → e.isScanErr) := by
  intro fuel schema hdefs
  have h1 : findCircularRefs fuel schema = (collectRefs fuel schema).map (fun _ => ()) := by
    simp only [findCircularRefs]
    cases hc : collectRefs fuel schema with
    | error e => simp [Except.map]
    | ok refs => simp [hdefs, Except.map]
  refine ⟨h1, fun e he => ?_⟩
  rw [h1] at he
  cases hc : collectRefs fuel schema with
  | error e2 =>
    rw [hc] at he
    simp only [Except.map] at he
    injection he with h2
    exact h2 ▸ dfs_scanErr fuel schema [] [] e2 hc
  | ok refs =>
    rw [hc] at he
    simp [Except.map] at he

/-- Claim C7, witness: a concrete `$defs`-free document on which the
characterization applies (here the scan succeeds, so the call is indeed a
silent no-op). -/
theorem C7_witness :
    truthyO (defsField noDefsDoc) = false ∧
      findCircularRefs 100 noDefsDoc = (collectRefs 100 noDefsDoc).map (fun _ => ()) :=
  ⟨by decide, (C7_noop 100 noDefsDoc (by decide)).1⟩

/-- Claim C10, counterexample.  The `$defs` block forms a reference cycle
`A ↔ B` that no `$ref` outside `$defs` reaches (the document's root carries
no references at all), yet `findCircularRefs` raises an error: the
per-definition indexing scan of the unrelated third definition `C` hits its
`"$ref":"#"` and raises RootSelfReference before any walk happens. -/
theorem C10_counterexample :
    findCircularRefs 100 defsCycleHashDoc =
      .error (.rootSelfReference ["", "#"]) := by
  decide

/-- Claim C10, amended: when the root reference index is empty — the root
scan, which descends only into `allOf`/`anyOf`/`oneOf`/`not`/`properties`
of object-typed nodes and never enters `$defs`, collects no pointers — the
transitive walk has nothing to start from, so `findCircularRefs` never
raises CircularReference or MaxDepthExceeded (a cycle confined to `$defs`
is never walked), and it completes normally provided the per-definition
indexing of the `$defs` bodies itself succeeds (that indexing can still
raise RootSelfReference, as the counterexample shows). -/
theorem C10_emptyRootIndex :
    ∀ fuel schema, collectRefs fuel schema = .ok [] →
      (∀ e, findCircularRefs fuel schema = .error e → e.isScanErr) ∧
      (∀ dv, defsField schema = some dv → truthy dv = true →
        exOk (buildDefinitionsRefs fuel (jsEntries dv) []) = true →
        findCircularRefs fuel schema = .ok ()) := by
  intro fuel schema hcollect
  constructor
  · intro e he
    simp only [findCircularRefs, hcollect] at he
    split at he
    · split at he
      · split at he
        · injection he with h2
          exact h2 ▸ buildDefs_scanErr _ _ _ _ (by assumption)
        · simp [seqTry] at he
      · simp at he
    · simp at he
  · intro dv hdv htr hok
    simp only [findCircularRefs, hcollect, hdv, truthyO, htr, if_true]
    cases hb : buildDefinitionsRefs fuel (jsEntries dv) [] with
    | error e => rw [hb] at hok; simp [exOk] at hok
    | ok m => simp [hb, seqTry]

/-- Claim C10, witness: the two-cycle `$defs` document with an empty root
index completes without any error. -/
theorem C10_witness :
    findCircularRefs 100 defsCycleDoc = .ok () :=
  (C10_emptyRootIndex 100 defsCycleDoc (by decide)).2
    (.obj [("A", .obj [("$ref", .str "#/$defs/B")]),
           ("B", .obj [("$ref", .str "#/$defs/A")])])
    (by decide) (by decide) (by decide)

/-- Claim C2, amended: a dangling pointer only fails the detector that
actually traverses it, and only the Recursion Detector can fail at all.
When the Recursion Detector reaches a node whose `$ref` does not resolve,
it throws (a `TypeError`, the only dangling-reference surfacing the code
has): shown on `reachedDanglingDoc`.  The Definition Cycle Detector never
raises any dangling-reference condition: a recorded pointer that is not a
definition key is skipped silently by the walk, even when it is reached —
shown on `walkedDanglingDoc`, whose dangling `#/$defs/Missing` is collected
and walked yet yields silent success. -/
theorem C2_amended :
    detect reachedDanglingDoc 100 = .error .typeError ∧
      findCircularRefs 100 walkedDanglingDoc = .ok () := by
  constructor
  · decide
  · decide

/-- A well-formed reference-free document on which the C8 theorem is
instantiated. -/
def tameDoc : JSON :=
  .obj [("type", .str "object"),
        ("properties", .obj [("a", .obj [("type", .str "string")]),
                             ("b", .obj [("type", .str "number")])])]

/-- Claim C8, counterexample.  A schema document with no `$ref` key
anywhere (second conjunct) on which `detect` reports
`hasRecursion = true`: both sibling properties hold the primitive value
`5`, the JavaScript `Set` identifies equal primitives (SameValueZero), so
visiting `properties.b` finds the `5` recorded at `properties.a` already
in the visited set and reports a spurious recursion at path
`"properties.b"`. -/
theorem C8_counterexample :
    detect twoFivesDoc 100 = .ok ⟨true, some "properties.b"⟩ ∧
      noRef twoFivesDoc = true := by
  constructor
  · decide
  · decide

/-- Claim C8, amended: for every schema document that contains no `$ref`
key anywhere AND is well-formed for the traversal (`tame`: unique object
keys, truthy composition values are objects/arrays whose members are again
objects or arrays), `checkForRecursionWithPath` returns
`hasRecursion = false` and `recursionPath = null`.  Without the
well-formedness condition the visited `Set` can identify two traversed
nodes holding the same primitive value and report a spurious recursion
(see the counterexample). -/
theorem C8_noRefFalse : ∀ (schema : JSON) (fuel : Nat),
    noRef schema = true → tame schema = true → sizeJ schema ≤ fuel →
    detect schema fuel = .ok ⟨false, none⟩ := by
  intro schema fuel hnr htm hsz
  have hpos := sizeJ_pos schema
  obtain ⟨f, rfl⟩ : ∃ f, fuel = f + 1 := ⟨fuel - 1, by omega⟩
  cases schema with
  | null => simp [tame] at htm
  | bool b =>
    simp only [detect, rootNode]
    have : checkForRecursionWithPath (JSON.bool b) (f + 1) (.prim (.bool b)) [] [] =
        .ok (⟨false, none⟩, [.prim (.bool b)]) := by
      simp [checkForRecursionWithPath, jsIndex, truthyRef, valAt, pruneTarget]
    rw [this]
    rfl
  | num n =>
    simp only [detect, rootNode]
    have : checkForRecursionWithPath (JSON.num n) (f + 1) (.prim (.num n)) [] [] =
        .ok (⟨false, none⟩, [.prim (.num n)]) := by
      simp [checkForRecursionWithPath, jsIndex, truthyRef, valAt, pruneTarget]
    rw [this]
    rfl
  | str s =>
    simp only [detect, rootNode]
    have : checkForRecursionWithPath (JSON.str s) (f + 1) (.prim (.str s)) [] [] =
        .ok (⟨false, none⟩, [.prim (.str s)]) := by
      simp [checkForRecursionWithPath, jsIndex, truthyRef, valAt, pruneTarget]
    rw [this]
    rfl
  | arr xs =>
    obtain ⟨V2, hrun, _⟩ := tameRun (.arr xs) (f + 1) [] (.arr xs) [] [] rfl rfl hnr htm
      hsz (by simp)
    simp only [detect, rootNode]
    rw [hrun]
    rfl
  | obj fs =>
    obtain ⟨V2, hrun, _⟩ := tameRun (.obj fs) (f + 1) [] (.obj fs) [] [] rfl rfl hnr htm
      hsz (by simp)
    simp only [detect, rootNode]
    rw [hrun]
    rfl

/-- Claim C8, witness: a representative reference-free well-formed schema
runs to `hasRecursion = false` with a `null` path. -/
theorem C8_witness : detect tameDoc 100 = .ok ⟨false, none⟩ :=
  C8_noRefFalse tameDoc 100 (by decide) (by decide) (by decide)

/-- Claim C1, counterexample.  The traversal reaches the node at
`properties.a`, whose non-empty `$ref` `#/$defs/A` resolves successfully
against the root (second conjunct) — yet `checkForRecursionWithPath` does
not return `hasRecursion = true`: the resolved definition `A` carries a
further reference `#/$defs/Missing` that fails to resolve, so the run
throws instead of returning. -/
theorem C1_counterexample :
    detect chainDanglingDoc 100 = .error .typeError ∧
      resolveRefs chainDanglingDoc (.pos [.fld "properties", .fld "a"]) =
        .ok (.pos [.fld "$defs", .fld "A"]) := by
  constructor
  · decide
  · decide

/-- Claim C1, amended: a call of `checkForRecursionWithPath` on a node
carrying a non-empty (string) `$ref` never returns `hasRecursion = false` —
it returns `hasRecursion = true` (the resolved node is added to the visited
set and the run immediately recurses into it, so the resolution chain can
only end in a revisit), unless a later reference of the chain fails to
resolve, in which case the run fails with the propagated resolution error
instead of returning. -/
theorem C1_neverFalse : ∀ (root : JSON) (fuel : Nat) (schema : NodeRef)
    (visited : List NodeRef) (path : List String) (s : String)
    (res : RecResult) (v : List NodeRef),
    jsIndex root schema "$ref" = .ok (.prim (.str s)) → s ≠ "" →
    checkForRecursionWithPath root fuel schema visited path = .ok (res, v) →
    res.hasRecursion = true := by
  intro root fuel schema visited path s res v hidx hs h
  refine checkRec_not_false root fuel schema visited path res v
    (Or.inr ⟨.prim (.str s), hidx, ?_⟩) h
  simp [truthyRef, valAt, truthy]
  exact hs

/-- Claim C1, witness: the single-reference node of `selfRefDoc`
instantiates the theorem — the run on it returns `hasRecursion = true`. -/
theorem C1_witness :
    RecResult.hasRecursion ⟨true, some "$ref:#"⟩ = true :=
  C1_neverFalse selfRefDoc 100 (.pos [.fld "properties", .fld "next"]) [] [] "#"
    ⟨true, some "$ref:#"⟩ [.pos []] (by decide) (by decide) (by decide)

/-- Claim C4: during the Definition Cycle Detector's transitive walk, a
CircularReference error is raised exactly when the pointer about to be
visited already appears on the current walk's path —
(i) an immediate revisit raises CircularReference carrying the path plus
the repeated pointer, (ii) every CircularReference payload ends in a
pointer that already occurs earlier on it (so the error is only raised on
true revisits of the identical pointer on the same path), and (iii) a
definition reachable via two different routes of the same document is
walked twice without any error (`twoRoutesDoc`, whose shared definition
`C` is reached from both `A` and `B`). -/
theorem C4_thm :
    (∀ (ref : JSON) (defs : TDefinitionsRefs) (path : List JSON), ref ∈ path →
      tryResolveRefs ref defs path = .error (.circularReference (path ++ [ref]))) ∧
    (∀ (ref : JSON) (defs : TDefinitionsRefs) (path : List JSON) (p : List JSON),
      tryResolveRefs ref defs path = .error (.circularReference p) →
      ∃ q r, p = q ++ [r] ∧ r ∈ q) ∧
    findCircularRefs 100 twoRoutesDoc = .ok () := by
  refine ⟨?_, ?_, by decide⟩
  · intro ref defs path h
    exact tryResolveFuel_mem 11 ref defs path h
  · intro ref defs path p h
    exact tryResolveFuel_circular_dup _ ref defs path p h

/-- Claim C4, witness: the immediate-revisit case instantiated at a
concrete pointer already on the path. -/
theorem C4_witness :
    tryResolveRefs (.str "x") [] [.str "x"] =
      .error (.circularReference [.str "x", .str "x"]) :=
  C4_thm.1 (.str "x") [] [.str "x"] (by decide)

/-- Claim C5: a reference chain of 11 or more distinct hops with no
repeated pointer makes the Definition Cycle Detector raise
MaxDepthExceeded (which fires when the walk's path length exceeds the
10-hop bound) and not CircularReference — (i) in general: walking the head
of any duplicate-free linear chain of 12 or more pointers from an empty
path ends in MaxDepthExceeded, and (ii) concretely: `findCircularRefs` on
the document whose `$defs` chain `D0 → … → D11` has 11 hops raises
MaxDepthExceeded carrying the twelve pointers. -/
theorem C5_thm :
    (∀ (rs : List JSON) (r : JSON) (defs : TDefinitionsRefs),
      chainInB defs (r :: rs) = true → (r :: rs).Nodup → 12 ≤ (r :: rs).length →
      ∃ p, tryResolveRefs r defs [] = .error (.maxDepthExceeded p)) ∧
    findCircularRefs 100 chainDoc11 =
      .error (.maxDepthExceeded ((List.range 12).map fun i =>
        .str ("#/$defs/D" ++ toString i))) := by
  refine ⟨?_, by decide⟩
  intro rs r defs hchain hnd hlen
  exact chain_max rs r defs [] 12 hchain (by simpa using hnd)
    (by simpa using hlen) (by omega) (by omega)

/-- Claim C5, witness: the general chain statement instantiated at the
abstract 11-hop chain `r0 → … → r11`. -/
theorem C5_witness :
    ∃ p, tryResolveRefs (.str "r0") chainDefsMap [] = .error (.maxDepthExceeded p) :=
  C5_thm.1 chainTail (.str "r0") chainDefsMap (by decide) (by decide) (by decide)

/-- Claim C9, counterexample.  On a path with two `$ref` steps, the
implementation builds its search pattern from the pointer of the LAST step
(line 25: `pathParts[pathParts.length - 1]`), not the first: for
`"$ref:#/x -> $ref:#/y"` over a text holding `"$ref": "#/x"` on line 2 and
`"$ref": "#/y"` on line 3, the implementation returns 3, while the
spec-modelled locator (pattern from the FIRST step, same
backward-then-forward scan) returns 2. -/
theorem C9_counterexample :
    findLineNumberForPath locTwoText "$ref:#/x -> $ref:#/y" = some 3 ∧
      lineLocatorSpec locTwoText "$ref:#/x -> $ref:#/y" = some 2 := by
  constructor
  · decide
  · decide

/-- Claim C9, amended: for every path whose first step is a `$ref:` step,
`findLineNumberForPath` searches the text for the literal pattern
`"$ref": "<pointer>"` with the pointer taken from the LAST step of the path
(for single-step paths this coincides with the first step), scanning lines
from the last backward (with a forward fallback): it returns `none` when no
line contains the pattern, and the 1-based number of the LAST matching line
otherwise. -/
theorem C9_refSearch : ∀ (jsonString path : String) (lines : List String) (pat : String),
    lines = jsSplit jsonString "\n" →
    jsStartsWith ((jsSplit path " -> ").headD "") "$ref:" = true →
    pat = "\"$ref\": \"" ++ ((jsSplit path " -> ").getLastD "").drop 5 ++ "\"" →
    ((∀ l ∈ lines, jsIncludes l pat = false) →
      findLineNumberForPath jsonString path = none) ∧
    (∀ i, i < lines.length → jsIncludes (lines.getD i "") pat = true →
      (∀ j, i < j → j < lines.length → jsIncludes (lines.getD j "") pat = false) →
      findLineNumberForPath jsonString path = some (i + 1)) := by
  intro js path lines pat hlines hstart hpat
  have hne : ¬ ((jsSplit path " -> ").length = 0) := by
    intro h0
    exact jsSplit_ne_nil path " -> " (List.length_eq_zero.mp h0)
  have hmem : ∀ i, i < lines.length → lines.getD i "" ∈ lines := by
    intro i hi
    rw [List.getD_eq_getElem lines "" hi]
    exact List.getElem_mem hi
  have hunfold : findLineNumberForPath js path =
      match scanBack lines pat lines.length with
      | some n => some n
      | none => scanFwdP (fun l => jsIncludes l pat) lines 1 := by
    simp only [findLineNumberForPath, if_neg hne, hstart, if_true, ← hlines, ← hpat]
  constructor
  · intro hall
    rw [hunfold, scanBack_none lines.length lines pat fun i hi => hall _ (hmem i hi)]
    exact scanFwdP_none _ lines 1 hall
  · intro i hi hinc hafter
    rw [hunfold, scanBack_last lines.length lines pat i hi hinc hafter]

/-- Claim C9, witness: on a text holding `"$ref": "#/$defs/A"` exactly once
(line 3), the single-step path `$ref:#/$defs/A` locates line 3; a pointer
appearing on no line yields `none`. -/
theorem C9_witness :
    findLineNumberForPath locText "$ref:#/$defs/A" = some 3 ∧
      findLineNumberForPath locText "$ref:#/nope" = none := by
  constructor
  · apply (C9_refSearch locText "$ref:#/$defs/A" _ _ rfl (by decide) rfl).2 2
      (by decide) (by decide)
    intro j h1 h2
    have h4 : (jsSplit locText "\n").length = 4 := by decide
    rw [h4] at h2
    interval_cases j
    decide
  · apply (C9_refSearch locText "$ref:#/nope" _ _ rfl (by decide) rfl).1
    decide

end Claims

end JsonSchemaVerif
